import Mathlib

/-!
Verification of the dag-be taxonomy backend: a shallow embedding of the
edge-list data model and of the graph operations implemented in
src/edges/edges.service.ts, src/database/repositories/edge.repository.ts,
src/concepts/services/taxonomy-path-stream.service.ts and the GraphService
in src/database/database.module.ts, together with theorems settling the
frozen claims about cycle safety, reachability, path enumeration,
shortest paths, subgraph truncation and edge deletion.
-/

namespace DagBe

/-- An edge row of the edges table: (parent_id, child_id). -/
abbrev Edge := String × String

/-- Rows of the edges table with parent_id = u, projected to child_id
(EdgeRepository.getChildren, restricted to ids). -/
def childrenIds (E : List Edge) (u : String) : List String :=
  (E.filter (fun e => e.1 == u)).map (fun e => e.2)

/-- Rows of the edges table with child_id = u, projected to parent_id
(EdgeRepository.getParents, restricted to ids; also the parents query in
TaxonomyPathStreamService.getParentsCached). -/
def parentIds (E : List Edge) (u : String) : List String :=
  (E.filter (fun e => e.2 == u)).map (fun e => e.1)

/-- There is a directed path of at least one edge from a to b following
parent_id to child_id edges. This is the mathematical reading of
reachability used by the spec for cycle detection and ancestors. -/
inductive hasPath (E : List Edge) : String → String → Prop
  | single {a b : String} : (a, b) ∈ E → hasPath E a b
  | cons {a b c : String} : (a, b) ∈ E → hasPath E b c → hasPath E a c

/-- SQL DELETE FROM edges WHERE parent_id = p AND child_id = c
(EdgeRepository.delete): removes every matching row. -/
def deleteEdge (E : List Edge) (p c : String) : List Edge :=
  E.filter (fun e => !(e.1 == p && e.2 == c))

/-!
Recursive CTE embedding. EdgeRepository.canReach, ConceptRepository.getAncestors
and ConceptRepository.getDescendants each run a recursive common table
expression over the edges table: a base SELECT picks seed rows, and the
recursive part joins the edges table against the rows derived so far. The
semantics of such a CTE is the saturation of the derived row set; we model it
as an iteration that adds, at each round, every edge row joining against an
already derived row, run for E.length rounds (enough to reach the fixpoint,
proved below). The base predicate and the join predicate are parameters so the
three queries share one embedding.
-/

/-- One saturation round of a recursive CTE over the edges table. -/
def cteStep (E : List Edge) (joins : Edge → Edge → Bool) (rows : List Edge) : List Edge :=
  rows ++ E.filter (fun e => (rows.any (fun r => joins r e)) && !(rows.contains e))

/-- The derived rows after n saturation rounds. -/
def cteIter (E : List Edge) (base : Edge → Bool) (joins : Edge → Edge → Bool) : Nat → List Edge
  | 0 => E.filter base
  | n + 1 => cteStep E joins (cteIter E base joins n)

/-- All rows derived by the recursive CTE (fixpoint reached by round E.length). -/
def cteRows (E : List Edge) (base : Edge → Bool) (joins : Edge → Edge → Bool) : List Edge :=
  cteIter E base joins E.length

/-- A row is derivable by the CTE: either a base row, or an edge row that
joins against a derivable row. -/
inductive cteDeriv (E : List Edge) (base : Edge → Bool) (joins : Edge → Edge → Bool) : Edge → Prop
  | base {e : Edge} : e ∈ E → base e = true → cteDeriv E base joins e
  | step {r e : Edge} : cteDeriv E base joins r → e ∈ E → joins r e = true →
      cteDeriv E base joins e

/-- EdgeRepository.canReach(fromId, toId): recursive CTE from the rows with
parent_id = fromId, joining e.parent_id = prior.child_id, then testing whether
any derived row has child_id = toId. -/
def canReach (E : List Edge) (fromId toId : String) : Bool :=
  (cteRows E (fun e => e.1 == fromId) (fun r e => r.2 == e.1)).any (fun r => r.2 == toId)

/-- EdgesService.detectCycle(parentId, childId): adding parentId to childId
would create a cycle iff childId can already reach parentId. -/
def detectCycle (E : List Edge) (parentId childId : String) : Bool :=
  canReach E childId parentId

/-- Errors surfaced by the services; fuelExhausted is a modelling artifact of
bounded loops and is proved unreachable where a claim depends on it. -/
inductive SvcError
  | notFound
  | badRequestCycle
  | fuelExhausted
deriving DecidableEq, Repr

/-- EdgesService.create: check both endpoint concepts exist (NotFoundException
otherwise), run the cycle check (BadRequestException on true), then insert the
edge row. An exception aborts before the insert, so on error the edge set is
unchanged; the search index sync does not touch the edge set. -/
def createEdge (concepts : List String) (E : List Edge) (parentId childId : String) :
    Except SvcError (List Edge) :=
  if !(concepts.contains parentId) then .error .notFound
  else if !(concepts.contains childId) then .error .notFound
  else if detectCycle E parentId childId then .error .badRequestCycle
  else .ok (E ++ [(parentId, childId)])

/-- EdgesService.remove: runs EdgeRepository.delete inside a try/catch that
rethrows NotFoundException. The DELETE statement succeeds (affecting zero
rows) when no matching row exists, so the catch branch is reached only on a
backend failure, never for a missing edge; the model therefore always
returns ok with the filtered edge set. -/
def removeEdge (E : List Edge) (parentId childId : String) : Except SvcError (List Edge) :=
  .ok (deleteEdge E parentId childId)

/-- Rows derived by the recursive CTE of ConceptRepository.getAncestors: base
rows have child_id = conceptId, and the recursive part joins edge rows whose
child_id equals a derived row parent_id. -/
def ancRows (E : List Edge) (conceptId : String) : List Edge :=
  cteRows E (fun e => e.2 == conceptId) (fun r e => e.2 == r.1)

/-- ConceptRepository.getAncestors restricted to ids: parent ids of the CTE
rows, joined against the concepts table, SELECT DISTINCT. The ORDER BY level
clause is not modelled; the claims about this query are set claims. -/
def getAncestorsIds (concepts : List String) (E : List Edge) (conceptId : String) :
    List String :=
  (((ancRows E conceptId).map (fun r => r.1)).filter (fun a => concepts.contains a)).dedup

/-- Rows derived by the recursive CTE of ConceptRepository.getDescendants. -/
def descRows (E : List Edge) (conceptId : String) : List Edge :=
  cteRows E (fun e => e.1 == conceptId) (fun r e => e.1 == r.2)

/-- ConceptRepository.getDescendants restricted to ids: child ids of the CTE
rows, joined against the concepts table, SELECT DISTINCT. -/
def getDescendantsIds (concepts : List String) (E : List Edge) (conceptId : String) :
    List String :=
  (((descRows E conceptId).map (fun r => r.2)).filter (fun a => concepts.contains a)).dedup

/-!
TaxonomyPathStreamService.executeStream: iterative DFS over parent edges with
an explicit stack, batched CONCURRENCY items at a time from the end of the
queue. Within one batch the closures all run their synchronous prefix (the
pathsFound guard, the nodesProcessed increment, the depth test) before any of
them resumes from an await, and every closure of the batch runs to completion
before the next batch starts; so the set of path events of a batch and all
counters are deterministic, and the guard compares against the value of
pathsFound at batch start. The model processes a batch as a pure map and then
applies all its effects, which matches that semantics exactly (only the
interleaving order of path events inside one batch is fixed by the model).
-/

/-- A stack frame of the iterative DFS: node, path so far (target first), depth. -/
structure StreamItem where
  nodeId : String
  currentPath : List String
  depth : Nat
deriving DecidableEq, Repr

/-- The outcome of a finished stream: the path events in order, and the
counters carried by the final done event. There is no truncated flag in the
PathChunk type. -/
structure StreamDone where
  paths : List (List String)
  found : Nat
  processed : Nat
deriving DecidableEq, Repr

/-- TaxonomyPathStreamService.resolvePathIds: reverse the collected ids into
root to target order and resolve each against the concepts table, dropping
ids that do not resolve. -/
def resolvePathIds (concepts : List String) (ids : List String) : List String :=
  (ids.reverse).filter (fun i => concepts.contains i)

/-- The body of one batch closure: emit the resolved path at the depth limit
or at a root (a node with no parents), otherwise push one frame per parent
that is not already on the current path (cycle defense). -/
def processStreamItem (concepts : List String) (E : List Edge) (maxDepth : Nat)
    (it : StreamItem) : Option (List String) × List StreamItem :=
  if maxDepth ≤ it.depth then (some (resolvePathIds concepts it.currentPath), [])
  else
    let parents := parentIds E it.nodeId
    if parents.isEmpty then (some (resolvePathIds concepts it.currentPath), [])
    else
      (none, (parents.filter (fun p => !(it.currentPath.contains p))).map
        (fun p => ⟨p, it.currentPath ++ [p], it.depth + 1⟩))

/-- The while loop of executeStream. The batch is spliced from the end of the
queue (LIFO); found is compared before the batch and its increments take
effect after the whole batch; the result frames are appended only when the
updated found is still below maxPaths. Fuel is a modelling artifact; a run
that returns some has exited the loop the way the source does. -/
def streamLoop (concepts : List String) (E : List Edge) (maxDepth maxPaths conc : Nat) :
    Nat → List StreamItem → Nat → Nat → List (List String) → Option StreamDone
  | 0, _, _, _, _ => none
  | fuel + 1, queue, found, processed, emitted =>
    if queue.isEmpty ∨ maxPaths ≤ found then some ⟨emitted, found, processed⟩
    else
      let batch := queue.drop (queue.length - conc)
      let rest := queue.take (queue.length - conc)
      let results := batch.map (processStreamItem concepts E maxDepth)
      let emits := results.filterMap (fun r => r.1)
      let found2 := found + emits.length
      let queue2 := if maxPaths ≤ found2 then rest
        else rest ++ (results.map (fun r => r.2)).flatten
      streamLoop concepts E maxDepth maxPaths conc fuel queue2 found2
        (processed + batch.length) (emitted ++ emits)

/-- TaxonomyPathStreamService.executeStream: resolve the start concept
(NotFoundException when missing) and run the DFS loop from a single frame. -/
def executeStream (fuel : Nat) (concepts : List String) (E : List Edge) (conceptId : String)
    (maxDepth maxPaths conc : Nat) : Except SvcError StreamDone :=
  if concepts.contains conceptId then
    match streamLoop concepts E maxDepth maxPaths conc fuel
        [⟨conceptId, [conceptId], 0⟩] 0 0 [] with
    | some d => .ok d
    | none => .error .fuelExhausted
  else .error .notFound

/-!
GraphService.getSubgraph and bfsTraverse (src/database/database.module.ts):
layer by layer BFS with a node cap, collecting nodes and edge keys.
-/

/-- The direction parameter of the subgraph query. -/
inductive SubDir
  | up
  | down
  | both
deriving DecidableEq, Repr

/-- Modelled from the spec: EdgeRepository.getChildrenOfConcepts is called by
GraphService.bfsTraverse but its definition is absent from the provided
sources. Per spec section 4.4 it is the batched one-layer child lookup: every
(parentId, child) edge row whose parent is in the layer, the child joined
against the concepts table. -/
def childrenOfConcepts (concepts : List String) (E : List Edge) (layer : List String) :
    List Edge :=
  E.filter (fun e => layer.contains e.1 && concepts.contains e.2)

/-- Modelled from the spec: EdgeRepository.getParentsOfConcepts, the batched
one-layer parent lookup (see childrenOfConcepts). -/
def parentsOfConcepts (concepts : List String) (E : List Edge) (layer : List String) :
    List Edge :=
  E.filter (fun e => layer.contains e.2 && concepts.contains e.1)

/-- The traversal accumulator of getSubgraph: result.nodes keys in insertion
order, result.edges as a deduplicated key set, and the visited set. -/
structure SubState where
  nodes : List String
  edges : List Edge
  visited : List String
deriving DecidableEq, Repr

/-- Adding an edge key to the result edge set (a Set of strings in the source). -/
def addEdgeKey (edges : List Edge) (e : Edge) : List Edge :=
  if edges.contains e then edges else edges ++ [e]

/-- The children half of one bfsTraverse layer: each (parentId, child) row in
turn breaks at the node cap, records its edge key, and adds an unvisited
child to the result and the next layer. -/
def processChildRows (maxNodes : Nat) :
    List Edge → SubState → List String → SubState × List String
  | [], st, nl => (st, nl)
  | (p, c) :: rows, st, nl =>
    if maxNodes ≤ st.nodes.length then (st, nl)
    else if st.visited.contains c then
      processChildRows maxNodes rows { st with edges := addEdgeKey st.edges (p, c) } nl
    else
      processChildRows maxNodes rows
        { st with
          edges := addEdgeKey st.edges (p, c)
          visited := st.visited ++ [c]
          nodes := st.nodes ++ [c] } (nl ++ [c])

/-- The parents half of one bfsTraverse layer: rows are (parent, childId)
edges whose child is in the layer; the new node is the parent. -/
def processParentRows (maxNodes : Nat) :
    List Edge → SubState → List String → SubState × List String
  | [], st, nl => (st, nl)
  | (p, c) :: rows, st, nl =>
    if maxNodes ≤ st.nodes.length then (st, nl)
    else if st.visited.contains p then
      processParentRows maxNodes rows { st with edges := addEdgeKey st.edges (p, c) } nl
    else
      processParentRows maxNodes rows
        { st with
          edges := addEdgeKey st.edges (p, c)
          visited := st.visited ++ [p]
          nodes := st.nodes ++ [p] } (nl ++ [p])

/-- One iteration of the bfsTraverse while loop: batch the child lookups for
the layer when the direction requests them, then the parent lookups, process
the children results then the parents results, returning the new accumulator
and the next layer. -/
def subgraphLayer (concepts : List String) (E : List Edge) (dir : SubDir) (maxNodes : Nat)
    (layer : List String) (st : SubState) : SubState × List String :=
  processParentRows maxNodes
    (if dir = .up ∨ dir = .both then parentsOfConcepts concepts E layer else [])
    (processChildRows maxNodes
      (if dir = .down ∨ dir = .both then childrenOfConcepts concepts E layer else [])
      st []).1
    (processChildRows maxNodes
      (if dir = .down ∨ dir = .both then childrenOfConcepts concepts E layer else [])
      st []).2

/-- GraphService.bfsTraverse: expand one frontier layer per iteration while
the layer is nonempty, depth remains, and the node count is below maxNodes.
The recursion is on the remaining depth, exactly the currentDepth < maxDepth
loop guard. -/
def bfsTraverse (concepts : List String) (E : List Edge) (dir : SubDir) (maxNodes : Nat) :
    Nat → List String → SubState → SubState
  | 0, _, st => st
  | depthLeft + 1, layer, st =>
    if layer.isEmpty then st
    else if maxNodes ≤ st.nodes.length then st
    else
      bfsTraverse concepts E dir maxNodes depthLeft
        (subgraphLayer concepts E dir maxNodes layer st).2
        (subgraphLayer concepts E dir maxNodes layer st).1

/-- The metadata block of the subgraph response. -/
structure SubgraphMeta where
  totalNodes : Nat
  totalEdges : Nat
  depth : Nat
  truncated : Bool
  truncatedNodes : Nat
deriving DecidableEq, Repr

/-- The subgraph response restricted to ids. -/
structure SubgraphResult where
  nodes : List String
  edges : List Edge
  metadata : SubgraphMeta
deriving DecidableEq, Repr

/-- GraphService.getSubgraph: resolve the center node, run the BFS from it,
then report truncated when the node count reached maxNodes, with
truncatedNodes set to maxNodes in that case and 0 otherwise. -/
def getSubgraph (concepts : List String) (E : List Edge) (nodeId : String)
    (depth : Nat) (dir : SubDir) (maxNodes : Nat) : Except SvcError SubgraphResult :=
  if concepts.contains nodeId then
    let st := bfsTraverse concepts E dir maxNodes depth [nodeId] ⟨[nodeId], [], [nodeId]⟩
    let truncated : Bool := maxNodes ≤ st.nodes.length
    .ok ⟨st.nodes, st.edges,
      ⟨st.nodes.length, st.edges.length, depth, truncated,
        if truncated then maxNodes else 0⟩⟩
  else .error .notFound

/-!
GraphService.findShortestPath and bfsShortestPath: single source BFS from the
from node, following children for downward, parents for upward, both for any,
with a visited map recording the BFS tree parent of each node and an early
return at the first discovery of the target.
-/

/-- The direction parameter of the shortest path query. -/
inductive PathDir
  | any
  | upward
  | downward
deriving DecidableEq, Repr

/-- The neighbors gathered for one dequeued node: children for downward or
any, then parents for upward or any, concatenated in that order. -/
def neighborIds (E : List Edge) (dir : PathDir) (u : String) : List String :=
  (if dir = .any ∨ dir = .downward then childrenIds E u else []) ++
    (if dir = .any ∨ dir = .upward then parentIds E u else [])

/-- A directed walk of n neighbor steps respecting the direction parameter. -/
inductive Steps (E : List Edge) (dir : PathDir) : String → String → Nat → Prop
  | refl (x : String) : Steps E dir x x 0
  | head {x y z : String} {n : Nat} :
      y ∈ neighborIds E dir x → Steps E dir y z n → Steps E dir x z (n + 1)

/-- n is the least number of hops from f to x respecting dir. -/
def minSteps (E : List Edge) (dir : PathDir) (f x : String) (n : Nat) : Prop :=
  Steps E dir f x n ∧ ∀ m, Steps E dir f x m → n ≤ m

/-- The loop of GraphService.reconstructPath: repeatedly unshift the current
node and move to its recorded BFS parent until a node with no parent. Fuel
bounds the pointer chase; the chains produced by the BFS are within it. -/
def reconGo (vis : List (String × Option String)) :
    Nat → String → List String → List String
  | 0, cur, acc => cur :: acc
  | fuel + 1, cur, acc =>
    match vis.lookup cur with
    | some (some p) => reconGo vis fuel p (cur :: acc)
    | _ => cur :: acc

/-- GraphService.reconstructPath restricted to the node list (the edges array
of the response holds one entry per parent link, so its length is the path
length minus one). -/
def reconstructPath (vis : List (String × Option String)) (t : String) : List String :=
  reconGo vis vis.length t []

/-- The for loop over the neighbors of the dequeued node: skip visited
neighbors, record the BFS parent of each new one, return at once when the
target is discovered, otherwise enqueue it at depth d + 1. -/
def scanNeighbors (toId u : String) (d : Nat) :
    List String → List (String × Option String) → List (String × Nat) →
    List (String × Option String) × List (String × Nat) × Bool
  | [], vis, q => (vis, q, false)
  | n :: ns, vis, q =>
    if (vis.lookup n).isSome then scanNeighbors toId u d ns vis q
    else
      let vis2 := vis ++ [(n, some u)]
      if n == toId then (vis2, q, true)
      else scanNeighbors toId u d ns vis2 (q ++ [(n, d + 1)])

/-- The while loop of GraphService.bfsShortestPath: dequeue from the front,
skip expansion at depth at least maxLength, otherwise scan the neighbors;
some none models the return null when the queue empties, and none is the
fuel artifact, proved unreachable for the fuel used below. -/
def bfsLoop (E : List Edge) (dir : PathDir) (maxLength : Nat) (toId : String) :
    Nat → List (String × Option String) → List (String × Nat) →
    Option (Option (List String))
  | 0, _, _ => none
  | _ + 1, _, [] => some none
  | fuel + 1, vis, (u, d) :: rest =>
    if maxLength ≤ d then bfsLoop E dir maxLength toId fuel vis rest
    else
      match scanNeighbors toId u d (neighborIds E dir u) vis rest with
      | (vis2, _, true) => some (some (reconstructPath vis2 toId))
      | (vis2, q2, false) => bfsLoop E dir maxLength toId fuel vis2 q2

/-- GraphService.bfsShortestPath: visited seeded with the from node (no
parent), queue seeded at depth 0. The fuel covers every possible iteration:
each iteration consumes one queue entry and entries are created only for
newly visited nodes, of which there are at most one per edge endpoint plus
the start. -/
def bfsShortestPath (E : List Edge) (dir : PathDir) (f t : String) (maxLength : Nat) :
    Option (Option (List String)) :=
  bfsLoop E dir maxLength t (2 * E.length + 2) [(f, none)] [(f, 0)]

/-- The shortest path response restricted to ids: found flag, node path, and
length, which the source computes as the number of edges of the path. -/
structure SPResult where
  found : Bool
  path : Option (List String)
  length : Nat
deriving DecidableEq, Repr

/-- GraphService.findShortestPath: both endpoints must resolve
(NotFoundException otherwise); equal endpoints short circuit to the zero
length path; otherwise the BFS result is wrapped, with length the edge count
of the returned path. -/
def findShortestPath (concepts : List String) (E : List Edge) (f t : String)
    (dir : PathDir) (maxLength : Nat) : Except SvcError SPResult :=
  if !(concepts.contains f) then .error .notFound
  else if !(concepts.contains t) then .error .notFound
  else if f == t then .ok ⟨true, some [f], 0⟩
  else
    match bfsShortestPath E dir f t maxLength with
    | some (some p) => .ok ⟨true, some p, p.length - 1⟩
    | some none => .ok ⟨false, none, 0⟩
    | none => .error .fuelExhausted

/-- The node universe touched by the edge table. -/
def nodesOf (E : List Edge) : List String :=
  E.map (fun e => e.1) ++ E.map (fun e => e.2)

/-- No node has a directed cycle through it. -/
def Acyclic (E : List Edge) : Prop :=
  ∀ x, ¬ hasPath E x x

/-- A chain of recorded BFS parents inside a visited map, from a parentless
entry down to x; used to reason about reconstructPath. -/
inductive PChain (vis : List (String × Option String)) : String → List String → Prop
  | root {x : String} : vis.lookup x = some none → PChain vis x [x]
  | link {x u : String} {p : List String} :
      vis.lookup x = some (some u) → PChain vis u p → PChain vis x (p ++ [x])

/-- The subgraph direction as a shortest path direction, for stating the
depth bound of the subgraph claim. -/
def SubDir.toPathDir : SubDir → PathDir
  | .up => .upward
  | .down => .downward
  | .both => .any

/-- The BFS queue always holds the current layer and then the next: every
entry carries depth d or d + 1, with the depth d entries in front. -/
def QueueLayered (d : Nat) (q : List (String × Nat)) : Prop :=
  ∃ qa qb, q = qa ++ qb ∧ (∀ pr ∈ qa, pr.2 = d) ∧ (∀ pr ∈ qb, pr.2 = d + 1)

/-- The invariant of the shortest path BFS loop: visited keys are unique, the
start node is recorded parentless, every visited node carries a recorded
parent chain that is a valid minimal length path from the start, queue
entries are visited nodes whose recorded depth is their true distance and
whose node components are unique, every visited node no longer queued and
within the depth bound has all its neighbors visited, and every visited key
is the start node or an edge endpoint. -/
structure BfsInv (E : List Edge) (dir : PathDir) (f : String) (maxLength : Nat)
    (vis : List (String × Option String)) (q : List (String × Nat)) : Prop where
  nodup : (vis.map Prod.fst).Nodup
  root : vis.lookup f = some none
  chains : ∀ n ∈ vis.map Prod.fst, ∃ dn p, minSteps E dir f n dn ∧ PChain vis n p ∧
    p.head? = some f ∧ p.getLast? = some n ∧
    List.Chain' (fun a b => b ∈ neighborIds E dir a) p ∧
    p.length = dn + 1 ∧ p.Nodup ∧ ∀ z ∈ p, z ∈ vis.map Prod.fst
  qmem : ∀ pr ∈ q, pr.1 ∈ vis.map Prod.fst ∧ minSteps E dir f pr.1 pr.2
  qnodup : (q.map Prod.fst).Nodup
  expCl : ∀ y dy, y ∈ vis.map Prod.fst → minSteps E dir f y dy → dy < maxLength →
    (∀ pr ∈ q, pr.1 ≠ y) → ∀ w ∈ neighborIds E dir y, w ∈ vis.map Prod.fst
  visBound : ∀ k ∈ vis.map Prod.fst, k = f ∨ k ∈ nodesOf E

/-!
Correctness of the recursive CTE embedding: membership in the saturated row
set coincides with derivability.
-/

theorem mem_cteIter_succ {E : List Edge} {base : Edge → Bool} {joins : Edge → Edge → Bool}
    {n : Nat} {e : Edge} :
    e ∈ cteIter E base joins (n + 1) ↔
      e ∈ cteIter E base joins n ∨
        (e ∈ E ∧ ∃ r ∈ cteIter E base joins n, joins r e = true) := by
  constructor
  · intro h
    rcases List.mem_append.mp h with h | h
    · exact Or.inl h
    · rcases List.mem_filter.mp h with ⟨heE, hcond⟩
      rw [Bool.and_eq_true] at hcond
      rcases List.any_eq_true.mp hcond.1 with ⟨r, hr, hjoins⟩
      exact Or.inr ⟨heE, r, hr, hjoins⟩
  · intro h
    rcases h with h | ⟨heE, r, hr, hjoins⟩
    · exact List.mem_append.mpr (Or.inl h)
    · by_cases hmem : e ∈ cteIter E base joins n
      · exact List.mem_append.mpr (Or.inl hmem)
      · refine List.mem_append.mpr (Or.inr (List.mem_filter.mpr ⟨heE, ?_⟩))
        rw [Bool.and_eq_true]
        refine ⟨List.any_eq_true.mpr ⟨r, hr, hjoins⟩, ?_⟩
        simp only [Bool.not_eq_true']
        rw [← Bool.not_eq_true]
        intro hc
        exact hmem (List.elem_iff.mp hc)

theorem cteIter_mono {E : List Edge} {base : Edge → Bool} {joins : Edge → Edge → Bool}
    {m n : Nat} (hmn : m ≤ n) {e : Edge} (h : e ∈ cteIter E base joins m) :
    e ∈ cteIter E base joins n := by
  induction n with
  | zero => rwa [Nat.le_zero.mp hmn] at h
  | succ n ih =>
    rcases Nat.le_succ_iff.mp hmn with h2 | h2
    · exact mem_cteIter_succ.mpr (Or.inl (ih h2))
    · rwa [h2] at h

theorem cteIter_subset_E {E : List Edge} {base : Edge → Bool} {joins : Edge → Edge → Bool}
    {n : Nat} {e : Edge} (h : e ∈ cteIter E base joins n) : e ∈ E := by
  induction n with
  | zero => exact (List.mem_filter.mp h).1
  | succ n ih =>
    rcases mem_cteIter_succ.mp h with h | h
    · exact ih h
    · exact h.1

theorem cteDeriv_of_mem_cteIter {E : List Edge} {base : Edge → Bool}
    {joins : Edge → Edge → Bool} {n : Nat} {e : Edge} (h : e ∈ cteIter E base joins n) :
    cteDeriv E base joins e := by
  induction n generalizing e with
  | zero =>
    rcases List.mem_filter.mp h with ⟨heE, hbase⟩
    exact .base heE hbase
  | succ n ih =>
    rcases mem_cteIter_succ.mp h with h | ⟨heE, r, hr, hj⟩
    · exact ih h
    · exact .step (ih hr) heE hj

theorem cteIter_stable {E : List Edge} {base : Edge → Bool} {joins : Edge → Edge → Bool}
    {n : Nat} (hst : ∀ e, e ∈ cteIter E base joins (n + 1) → e ∈ cteIter E base joins n)
    (m : Nat) : ∀ e, e ∈ cteIter E base joins (n + m) → e ∈ cteIter E base joins n := by
  induction m with
  | zero => exact fun e h => h
  | succ m ih =>
    intro e h
    rcases mem_cteIter_succ.mp h with h | ⟨heE, r, hr, hj⟩
    · exact ih e h
    · exact hst e (mem_cteIter_succ.mpr (Or.inr ⟨heE, r, ih r hr, hj⟩))

theorem cteIter_reaches_fixpoint (E : List Edge) (base : Edge → Bool)
    (joins : Edge → Edge → Bool) :
    ∃ n ≤ E.length, ∀ e, e ∈ cteIter E base joins (n + 1) → e ∈ cteIter E base joins n := by
  by_contra hcon
  push_neg at hcon
  have hgrow : ∀ k, k ≤ E.length + 1 → k ≤ ((cteIter E base joins k).toFinset).card := by
    intro k
    induction k with
    | zero => intro _; exact Nat.zero_le _
    | succ k ih =>
      intro hk
      have hk2 : k ≤ E.length := Nat.lt_succ_iff.mp hk
      obtain ⟨e, he1, he2⟩ := hcon k hk2
      have hsub : (cteIter E base joins k).toFinset ⊂ (cteIter E base joins (k + 1)).toFinset := by
        constructor
        · intro x hx
          exact List.mem_toFinset.mpr
            (mem_cteIter_succ.mpr (Or.inl (List.mem_toFinset.mp hx)))
        · intro hsub2
          exact he2 (List.mem_toFinset.mp (hsub2 (List.mem_toFinset.mpr he1)))
      calc k + 1 ≤ ((cteIter E base joins k).toFinset).card + 1 :=
            Nat.succ_le_succ (ih (Nat.le_of_succ_le hk))
        _ ≤ ((cteIter E base joins (k + 1)).toFinset).card := Finset.card_lt_card hsub
  have h1 : E.length + 1 ≤ ((cteIter E base joins (E.length + 1)).toFinset).card :=
    hgrow (E.length + 1) le_rfl
  have h2 : ((cteIter E base joins (E.length + 1)).toFinset).card ≤ E.toFinset.card :=
    Finset.card_le_card (fun x hx =>
      List.mem_toFinset.mpr (cteIter_subset_E (List.mem_toFinset.mp hx)))
  have h3 : E.toFinset.card ≤ E.length := E.toFinset_card_le
  omega

theorem mem_cteRows_of_cteDeriv {E : List Edge} {base : Edge → Bool}
    {joins : Edge → Edge → Bool} {e : Edge} (h : cteDeriv E base joins e) :
    e ∈ cteRows E base joins := by
  obtain ⟨n, hn, hst⟩ := cteIter_reaches_fixpoint E base joins
  have key : ∀ m e, e ∈ cteIter E base joins m → e ∈ cteIter E base joins E.length := by
    intro m e hm
    rcases Nat.le_total m E.length with hc | hc
    · exact cteIter_mono hc hm
    · have : e ∈ cteIter E base joins (n + (m - n)) := by
        rwa [Nat.add_sub_cancel' (le_trans hn hc)]
      exact cteIter_mono hn (cteIter_stable hst (m - n) e this)
  induction h with
  | base heE hbase =>
    exact cteIter_mono (Nat.zero_le _) (List.mem_filter.mpr ⟨heE, hbase⟩)
  | step _ heE hj ih =>
    exact key (E.length + 1) _ (mem_cteIter_succ.mpr (Or.inr ⟨heE, _, ih, hj⟩))

theorem mem_cteRows_iff {E : List Edge} {base : Edge → Bool}
    {joins : Edge → Edge → Bool} {e : Edge} :
    e ∈ cteRows E base joins ↔ cteDeriv E base joins e :=
  ⟨cteDeriv_of_mem_cteIter, mem_cteRows_of_cteDeriv⟩

/-!
The reachability CTE of canReach computes exactly the nonempty path relation.
-/

theorem hasPath.append_edge {E : List Edge} {a b c : String}
    (h : hasPath E a b) (hbc : (b, c) ∈ E) : hasPath E a c := by
  induction h with
  | single hab => exact .cons hab (.single hbc)
  | cons hab _ ih => exact .cons hab (ih hbc)

theorem cteDeriv_canReach_mem {E : List Edge} {f : String} {e : Edge}
    (h : cteDeriv E (fun e => e.1 == f) (fun r e => r.2 == e.1) e) :
    e ∈ E ∧ (e.1 = f ∨ hasPath E f e.1) := by
  induction h with
  | base heE hbase =>
    refine ⟨heE, Or.inl ?_⟩
    simpa using hbase
  | @step r e2 _ heE hj ih =>
    refine ⟨heE, Or.inr ?_⟩
    have hj2 : r.2 = e2.1 := by simpa using hj
    rcases ih with ⟨hrE, hcase⟩
    have hrE2 : (r.1, r.2) ∈ E := by simpa using hrE
    rcases hcase with h1 | h1
    · rw [← hj2, ← h1]
      exact hasPath.single hrE2
    · rw [← hj2]
      exact h1.append_edge hrE2

theorem cteDeriv_canReach_last {E : List Edge} {f a t : String} (h : hasPath E a t)
    (ha : a = f ∨ ∃ r, cteDeriv E (fun e => e.1 == f) (fun r e => r.2 == e.1) r ∧ r.2 = a) :
    ∃ r, cteDeriv E (fun e => e.1 == f) (fun r e => r.2 == e.1) r ∧ r.2 = t := by
  induction h generalizing f with
  | @single a t hat =>
    refine ⟨(a, t), ?_, rfl⟩
    rcases ha with h1 | ⟨r, hr, hr2⟩
    · exact .base hat (by simpa using h1)
    · exact .step hr hat (by simpa using hr2)
  | @cons a m t ham _ ih =>
    have hd : cteDeriv E (fun e => e.1 == f) (fun r e => r.2 == e.1) (a, m) := by
      rcases ha with h1 | ⟨r, hr, hr2⟩
      · exact .base ham (by simpa using h1)
      · exact .step hr ham (by simpa using hr2)
    exact ih (Or.inr ⟨(a, m), hd, rfl⟩)

/-- The CTE behind EdgeRepository.canReach decides the nonempty directed path
relation over the current edge set. -/
theorem canReach_iff_hasPath {E : List Edge} {f t : String} :
    canReach E f t = true ↔ hasPath E f t := by
  unfold canReach
  constructor
  · intro h
    rcases List.any_eq_true.mp h with ⟨r, hr, hrt⟩
    have hrt2 : r.2 = t := by simpa using hrt
    rcases cteDeriv_canReach_mem (mem_cteRows_iff.mp hr) with ⟨hrE, hcase⟩
    have hrE2 : (r.1, r.2) ∈ E := by simpa using hrE
    rcases hcase with h1 | h1
    · rw [← hrt2, ← h1]
      exact hasPath.single hrE2
    · rw [← hrt2]
      exact h1.append_edge hrE2
  · intro h
    obtain ⟨r, hr, hr2⟩ := cteDeriv_canReach_last h (Or.inl rfl)
    exact List.any_eq_true.mpr ⟨r, mem_cteRows_iff.mpr hr, by simpa using hr2⟩

/-!
The ancestors CTE of ConceptRepository.getAncestors derives exactly the
edges lying on some directed path into the queried concept.
-/

theorem cteDeriv_anc_mem {E : List Edge} {c : String} {e : Edge}
    (h : cteDeriv E (fun e => e.2 == c) (fun r e => e.2 == r.1) e) :
    e ∈ E ∧ (e.2 = c ∨ hasPath E e.2 c) := by
  induction h with
  | base heE hbase =>
    refine ⟨heE, Or.inl ?_⟩
    simpa using hbase
  | @step r e2 _ heE hj ih =>
    refine ⟨heE, Or.inr ?_⟩
    have hj2 : e2.2 = r.1 := by simpa using hj
    rcases ih with ⟨hrE, hcase⟩
    have hrE2 : (r.1, r.2) ∈ E := by simpa using hrE
    rw [hj2]
    rcases hcase with h1 | h1
    · rw [← h1]
      exact hasPath.single hrE2
    · exact hasPath.cons hrE2 h1

theorem mem_ancRows_of_hasPath {E : List Edge} {a c : String} (h : hasPath E a c) :
    ∃ r ∈ ancRows E c, r.1 = a := by
  induction h with
  | @single a c hac =>
    exact ⟨(a, c), mem_cteRows_iff.mpr (.base hac (by simp)), rfl⟩
  | @cons a m c ham _ ih =>
    obtain ⟨r, hr, hr1⟩ := ih
    refine ⟨(a, m), mem_cteRows_iff.mpr (.step (mem_cteRows_iff.mp hr) ham ?_), rfl⟩
    simpa using hr1.symm

/-- Membership in the ancestors result: exactly the concepts with a nonempty
directed path into the queried node. -/
theorem mem_getAncestorsIds {concepts : List String} {E : List Edge} {c a : String} :
    a ∈ getAncestorsIds concepts E c ↔ a ∈ concepts ∧ hasPath E a c := by
  unfold getAncestorsIds
  rw [List.mem_dedup, List.mem_filter]
  constructor
  · rintro ⟨hmem, hcont⟩
    rcases List.mem_map.mp hmem with ⟨r, hr, hr1⟩
    have hmemc : a ∈ concepts := by simpa using hcont
    rcases cteDeriv_anc_mem (mem_cteRows_iff.mp hr) with ⟨hrE, hcase⟩
    have hrE2 : (r.1, r.2) ∈ E := by simpa using hrE
    refine ⟨hmemc, ?_⟩
    rcases hcase with h1 | h1
    · rw [← hr1]
      exact h1 ▸ hasPath.single hrE2
    · rw [← hr1]
      exact hasPath.cons hrE2 h1
  · rintro ⟨hmemc, hpath⟩
    obtain ⟨r, hr, hr1⟩ := mem_ancRows_of_hasPath hpath
    exact ⟨List.mem_map.mpr ⟨r, hr, hr1⟩, by simpa using hmemc⟩

/-- No edge list proves a path out of the empty edge set. -/
theorem not_hasPath_nil (x y : String) : ¬ hasPath [] x y := by
  intro h
  cases h with
  | single h => simp at h
  | cons h _ => simp at h

/-- C2: the cycle check run before inserting parentId to childId reports a
cycle exactly when childId already reaches parentId through at least one
existing parent to child edge, that is, when parentId lies in the set of
nodes reachable from childId. -/
theorem C2_detectCycle_iff_child_reaches_parent (E : List Edge) (parentId childId : String) :
    detectCycle E parentId childId = true ↔ hasPath E childId parentId :=
  canReach_iff_hasPath

/-- The C2 equivalence applied at a concrete edge set: with the single edge
b to a, inserting a to b is reported as a cycle. -/
theorem C2_witness : detectCycle [("b", "a")] "a" "b" = true :=
  (C2_detectCycle_iff_child_reaches_parent [("b", "a")] "a" "b").mpr
    (.single (by simp))

/-- C10: creating a self loop on a concept with no existing nonempty cycle
through it passes the cycle check, because the reachability CTE only finds
paths of at least one edge; the edge (X, X) is inserted. -/
theorem C10_selfLoop_inserted (concepts : List String) (E : List Edge) (X : String)
    (hX : X ∈ concepts) (hnc : ¬ hasPath E X X) :
    createEdge concepts E X X = .ok (E ++ [(X, X)]) := by
  unfold createEdge
  have h1 : concepts.contains X = true := List.elem_iff.mpr hX
  have h2 : detectCycle E X X = false := by
    rw [← Bool.not_eq_true]
    intro hc
    exact hnc (canReach_iff_hasPath.mp hc)
  simp [hX, h1, h2]

/-- C10 applied at a concrete input: on the empty acyclic edge set the self
loop (a, a) is inserted without rejection. -/
theorem C10_witness :
    ("a" ∈ ["a"] ∧ ¬ hasPath [] "a" "a") ∧
      createEdge ["a"] [] "a" "a" = .ok [("a", "a")] :=
  ⟨⟨by simp, not_hasPath_nil "a" "a"⟩,
    C10_selfLoop_inserted ["a"] [] "a" (by simp) (not_hasPath_nil "a" "a")⟩

/-- C1: the no cycle invariant fails on the code as written: starting from the
empty, acyclic edge set, EdgesService.create accepts the self loop (a, a)
without any rejection, and the resulting edge set contains a directed cycle. -/
theorem C1_selfLoop_breaks_invariant :
    Acyclic ([] : List Edge) ∧
      createEdge ["a"] [] "a" "a" = .ok [("a", "a")] ∧
      hasPath [("a", "a")] "a" "a" :=
  ⟨fun x => not_hasPath_nil x x, rfl, hasPath.single (by simp)⟩

/-- C9: EdgesService.remove does not raise NotFound for a missing edge: the
DELETE affects zero rows and completes, so the call succeeds as a no op;
removing an existing edge also succeeds and deletes the row. -/
theorem C9_remove_missing_edge_succeeds :
    removeEdge ([] : List Edge) "a" "b" = .ok [] ∧
      removeEdge [("a", "b")] "a" "b" = .ok [] ∧
      (∀ (E : List Edge) (p c : String), removeEdge E p c = .ok (deleteEdge E p c)) :=
  ⟨rfl, rfl, fun _ _ _ => rfl⟩

/-- C8: an Ancestors read after deleting the edge (parent, child) is computed
by a recursive query over the current edge rows (the cached parent sets are
not on this read path), so parent appears in the result for a node d exactly
when a surviving edge chain still connects parent to d. -/
theorem C8_ancestors_after_delete (concepts : List String) (E : List Edge)
    (parent child d : String) :
    parent ∈ getAncestorsIds concepts (deleteEdge E parent child) d ↔
      parent ∈ concepts ∧ hasPath (deleteEdge E parent child) parent d :=
  mem_getAncestorsIds

/-- C8 applied at a concrete input: deleting p to c removes p from the
ancestors of d in the chain p to c to d. -/
theorem C8_witness :
    "p" ∉ getAncestorsIds ["p", "c", "d"] (deleteEdge [("p", "c"), ("c", "d")] "p" "c") "d" := by
  intro h
  have h2 := (C8_ancestors_after_delete ["p", "c", "d"] [("p", "c"), ("c", "d")] "p" "c" "d").mp h
  have hdel : deleteEdge [("p", "c"), ("c", "d")] "p" "c" = [("c", "d")] := rfl
  rw [hdel] at h2
  rcases h2 with ⟨_, hp⟩
  cases hp with
  | single h3 =>
    rw [List.mem_singleton] at h3
    have h4 : "p" = "c" := congrArg Prod.fst h3
    exact absurd h4 (by decide)
  | cons h3 _ =>
    rw [List.mem_singleton] at h3
    have h4 : "p" = "c" := congrArg Prod.fst h3
    exact absurd h4 (by decide)

/-- C5: on the diamond with A above B and C and both above D, the ancestors of
D are exactly A, B and C and the descendants of A are exactly B, C and D,
each appearing exactly once. -/
theorem C5_diamond_closures :
    (getAncestorsIds ["A", "B", "C", "D"]
        [("A", "B"), ("A", "C"), ("B", "D"), ("C", "D")] "D").Perm ["A", "B", "C"] ∧
      (getDescendantsIds ["A", "B", "C", "D"]
        [("A", "B"), ("A", "C"), ("B", "D"), ("C", "D")] "A").Perm ["B", "C", "D"] := by
  have h1 : getAncestorsIds ["A", "B", "C", "D"]
      [("A", "B"), ("A", "C"), ("B", "D"), ("C", "D")] "D" = ["B", "C", "A"] := rfl
  have h2 : getDescendantsIds ["A", "B", "C", "D"]
      [("A", "B"), ("A", "C"), ("B", "D"), ("C", "D")] "A" = ["B", "C", "D"] := rfl
  rw [h1, h2]
  exact ⟨by decide, List.Perm.refl _⟩

/-- C3: on the diamond, the streaming paths to root enumeration of D with
maxDepth 10 and maxPaths 10 returns exactly two paths, A B D and A C D, each
ordered from root to target; neither bound truncates the run. -/
theorem C3_diamond_pathsToRoot :
    ∃ d, executeStream 10 ["A", "B", "C", "D"]
        [("A", "B"), ("A", "C"), ("B", "D"), ("C", "D")] "D" 10 10 10 = .ok d ∧
      d.paths.Perm [["A", "B", "D"], ["A", "C", "D"]] ∧ d.paths.length = 2 :=
  ⟨⟨[["A", "B", "D"], ["A", "C", "D"]], 2, 5⟩, rfl, List.Perm.refl _, rfl⟩

/-- C6: with maxPaths 1 on the diamond, the run emits two path events rather
than one: the two root frames sit in the same concurrent batch and both pass
the pathsFound guard before either emission increments it; the final done
event carries only the found and processed counters, with no truncated flag
in the PathChunk shape. -/
theorem C6_maxPaths_overshoot :
    executeStream 10 ["A", "B", "C", "D"]
        [("A", "B"), ("A", "C"), ("B", "D"), ("C", "D")] "D" 25 1 10 =
      .ok ⟨[["A", "B", "D"], ["A", "C", "D"]], 2, 5⟩ := rfl

/-- C7 counterexample: with center a over four children and maxNodes 2, three
reachable nodes are cut off (five would be returned uncapped, two are kept),
yet the metadata reports truncatedNodes = 2, the cap value, not the number
cut off. -/
theorem C7_truncatedNodes_not_cutoff_count :
    getSubgraph ["a", "b", "c", "d", "e"]
        [("a", "b"), ("a", "c"), ("a", "d"), ("a", "e")] "a" 1 .down 2 =
      .ok ⟨["a", "b"], [("a", "b")], ⟨2, 1, 1, true, 2⟩⟩ ∧
      getSubgraph ["a", "b", "c", "d", "e"]
        [("a", "b"), ("a", "c"), ("a", "d"), ("a", "e")] "a" 1 .down 100 =
      .ok ⟨["a", "b", "c", "d", "e"],
        [("a", "b"), ("a", "c"), ("a", "d"), ("a", "e")], ⟨5, 4, 1, false, 0⟩⟩ ∧
      5 - 2 ≠ 2 :=
  ⟨rfl, rfl, by decide⟩

/-!
General behavior of the subgraph traversal: the node cap is respected, every
returned node is within the requested depth of the center, and the metadata
fields are computed from the final node count.
-/

theorem processChildRows_nodes_le (maxNodes : Nat) :
    ∀ (rows : List Edge) (st : SubState) (nl : List String),
      st.nodes.length ≤ maxNodes →
      (processChildRows maxNodes rows st nl).1.nodes.length ≤ maxNodes := by
  intro rows
  induction rows with
  | nil => intro st nl h; simpa [processChildRows] using h
  | cons e rest ih =>
    intro st nl h
    obtain ⟨p, c⟩ := e
    rw [processChildRows]
    split_ifs with h1 h2
    · simpa using h
    · exact ih _ _ h
    · refine ih _ _ ?_
      have h3 : st.nodes.length < maxNodes := Nat.lt_of_not_le h1
      simpa using h3

theorem processParentRows_nodes_le (maxNodes : Nat) :
    ∀ (rows : List Edge) (st : SubState) (nl : List String),
      st.nodes.length ≤ maxNodes →
      (processParentRows maxNodes rows st nl).1.nodes.length ≤ maxNodes := by
  intro rows
  induction rows with
  | nil => intro st nl h; simpa [processParentRows] using h
  | cons e rest ih =>
    intro st nl h
    obtain ⟨p, c⟩ := e
    rw [processParentRows]
    split_ifs with h1 h2
    · simpa using h
    · exact ih _ _ h
    · refine ih _ _ ?_
      have h3 : st.nodes.length < maxNodes := Nat.lt_of_not_le h1
      simpa using h3

theorem bfsTraverse_nodes_le (concepts : List String) (E : List Edge) (dir : SubDir)
    (maxNodes : Nat) :
    ∀ (depthLeft : Nat) (layer : List String) (st : SubState),
      st.nodes.length ≤ maxNodes →
      (bfsTraverse concepts E dir maxNodes depthLeft layer st).nodes.length ≤ maxNodes := by
  intro depthLeft
  induction depthLeft with
  | zero => intro layer st h; simpa [bfsTraverse] using h
  | succ d ih =>
    intro layer st h
    rw [bfsTraverse]
    split_ifs with h0 h1
    · exact h
    · exact h
    · exact ih _ _ (processParentRows_nodes_le _ _ _ _ (processChildRows_nodes_le _ _ _ _ h))

theorem processChildRows_mem (maxNodes : Nat) :
    ∀ (rows : List Edge) (st : SubState) (nl : List String),
      (∀ x ∈ (processChildRows maxNodes rows st nl).1.nodes,
        x ∈ st.nodes ∨ ∃ e ∈ rows, x = e.2) ∧
      (∀ x ∈ (processChildRows maxNodes rows st nl).2,
        x ∈ nl ∨ ∃ e ∈ rows, x = e.2) := by
  intro rows
  induction rows with
  | nil =>
    intro st nl
    constructor
    · intro x hx; exact Or.inl (by simpa [processChildRows] using hx)
    · intro x hx; exact Or.inl (by simpa [processChildRows] using hx)
  | cons e rest ih =>
    intro st nl
    obtain ⟨p, c⟩ := e
    rw [processChildRows]
    split_ifs with h1 h2
    · constructor
      · intro x hx; exact Or.inl hx
      · intro x hx; exact Or.inl hx
    · constructor
      · intro x hx
        rcases (ih _ _).1 x hx with h | ⟨e2, he2, hx2⟩
        · exact Or.inl h
        · exact Or.inr ⟨e2, List.mem_cons_of_mem _ he2, hx2⟩
      · intro x hx
        rcases (ih _ _).2 x hx with h | ⟨e2, he2, hx2⟩
        · exact Or.inl h
        · exact Or.inr ⟨e2, List.mem_cons_of_mem _ he2, hx2⟩
    · constructor
      · intro x hx
        rcases (ih _ _).1 x hx with h | ⟨e2, he2, hx2⟩
        · rcases List.mem_append.mp h with h | h
          · exact Or.inl h
          · exact Or.inr ⟨(p, c), List.mem_cons_self _ _, by simpa using h⟩
        · exact Or.inr ⟨e2, List.mem_cons_of_mem _ he2, hx2⟩
      · intro x hx
        rcases (ih _ _).2 x hx with h | ⟨e2, he2, hx2⟩
        · rcases List.mem_append.mp h with h | h
          · exact Or.inl h
          · exact Or.inr ⟨(p, c), List.mem_cons_self _ _, by simpa using h⟩
        · exact Or.inr ⟨e2, List.mem_cons_of_mem _ he2, hx2⟩

theorem processParentRows_mem (maxNodes : Nat) :
    ∀ (rows : List Edge) (st : SubState) (nl : List String),
      (∀ x ∈ (processParentRows maxNodes rows st nl).1.nodes,
        x ∈ st.nodes ∨ ∃ e ∈ rows, x = e.1) ∧
      (∀ x ∈ (processParentRows maxNodes rows st nl).2,
        x ∈ nl ∨ ∃ e ∈ rows, x = e.1) := by
  intro rows
  induction rows with
  | nil =>
    intro st nl
    constructor
    · intro x hx; exact Or.inl (by simpa [processParentRows] using hx)
    · intro x hx; exact Or.inl (by simpa [processParentRows] using hx)
  | cons e rest ih =>
    intro st nl
    obtain ⟨p, c⟩ := e
    rw [processParentRows]
    split_ifs with h1 h2
    · constructor
      · intro x hx; exact Or.inl hx
      · intro x hx; exact Or.inl hx
    · constructor
      · intro x hx
        rcases (ih _ _).1 x hx with h | ⟨e2, he2, hx2⟩
        · exact Or.inl h
        · exact Or.inr ⟨e2, List.mem_cons_of_mem _ he2, hx2⟩
      · intro x hx
        rcases (ih _ _).2 x hx with h | ⟨e2, he2, hx2⟩
        · exact Or.inl h
        · exact Or.inr ⟨e2, List.mem_cons_of_mem _ he2, hx2⟩
    · constructor
      · intro x hx
        rcases (ih _ _).1 x hx with h | ⟨e2, he2, hx2⟩
        · rcases List.mem_append.mp h with h | h
          · exact Or.inl h
          · exact Or.inr ⟨(p, c), List.mem_cons_self _ _, by simpa using h⟩
        · exact Or.inr ⟨e2, List.mem_cons_of_mem _ he2, hx2⟩
      · intro x hx
        rcases (ih _ _).2 x hx with h | ⟨e2, he2, hx2⟩
        · rcases List.mem_append.mp h with h | h
          · exact Or.inl h
          · exact Or.inr ⟨(p, c), List.mem_cons_self _ _, by simpa using h⟩
        · exact Or.inr ⟨e2, List.mem_cons_of_mem _ he2, hx2⟩

theorem mem_childrenIds_of_mem {E : List Edge} {u v : String} (h : (u, v) ∈ E) :
    v ∈ childrenIds E u := by
  unfold childrenIds
  exact List.mem_map.mpr ⟨(u, v), List.mem_filter.mpr ⟨h, by simp⟩, rfl⟩

theorem mem_parentIds_of_mem {E : List Edge} {u v : String} (h : (u, v) ∈ E) :
    u ∈ parentIds E v := by
  unfold parentIds
  exact List.mem_map.mpr ⟨(u, v), List.mem_filter.mpr ⟨h, by simp⟩, rfl⟩

theorem child_mem_neighborIds {E : List Edge} {u v : String} (h : (u, v) ∈ E)
    {dir : PathDir} (hd : dir = .any ∨ dir = .downward) : v ∈ neighborIds E dir u := by
  unfold neighborIds
  refine List.mem_append.mpr (Or.inl ?_)
  rw [if_pos hd]
  exact mem_childrenIds_of_mem h

theorem parent_mem_neighborIds {E : List Edge} {u v : String} (h : (u, v) ∈ E)
    {dir : PathDir} (hd : dir = .any ∨ dir = .upward) : u ∈ neighborIds E dir v := by
  unfold neighborIds
  refine List.mem_append.mpr (Or.inr ?_)
  rw [if_pos hd]
  exact mem_parentIds_of_mem h

theorem childRows_step {concepts layer : List String} {E : List Edge} {dir : SubDir}
    {e : Edge}
    (h : e ∈ (if dir = SubDir.down ∨ dir = SubDir.both
      then childrenOfConcepts concepts E layer else [])) :
    e.1 ∈ layer ∧ e.2 ∈ neighborIds E dir.toPathDir e.1 := by
  split at h
  · rename_i hd
    rcases List.mem_filter.mp h with ⟨heE, hcond⟩
    rw [Bool.and_eq_true] at hcond
    have h1 : e.1 ∈ layer := List.elem_iff.mp hcond.1
    have heE2 : (e.1, e.2) ∈ E := by simpa using heE
    refine ⟨h1, child_mem_neighborIds heE2 ?_⟩
    rcases hd with hd | hd <;> simp [hd, SubDir.toPathDir]
  · simp at h

theorem parentRows_step {concepts layer : List String} {E : List Edge} {dir : SubDir}
    {e : Edge}
    (h : e ∈ (if dir = SubDir.up ∨ dir = SubDir.both
      then parentsOfConcepts concepts E layer else [])) :
    e.2 ∈ layer ∧ e.1 ∈ neighborIds E dir.toPathDir e.2 := by
  split at h
  · rename_i hd
    rcases List.mem_filter.mp h with ⟨heE, hcond⟩
    rw [Bool.and_eq_true] at hcond
    have h1 : e.2 ∈ layer := List.elem_iff.mp hcond.1
    have heE2 : (e.1, e.2) ∈ E := by simpa using heE
    refine ⟨h1, parent_mem_neighborIds heE2 ?_⟩
    rcases hd with hd | hd <;> simp [hd, SubDir.toPathDir]
  · simp at h

theorem subgraphLayer_mem_nodes {concepts layer : List String} {E : List Edge}
    {dir : SubDir} {maxNodes : Nat} {st : SubState} {z : String}
    (hz : z ∈ (subgraphLayer concepts E dir maxNodes layer st).1.nodes) :
    z ∈ st.nodes ∨ ∃ y ∈ layer, z ∈ neighborIds E dir.toPathDir y := by
  unfold subgraphLayer at hz
  rcases (processParentRows_mem maxNodes _ _ _).1 z hz with hz2 | ⟨e2, he2, hz2⟩
  · rcases (processChildRows_mem maxNodes _ _ _).1 z hz2 with hz3 | ⟨e3, he3, hz3⟩
    · exact Or.inl hz3
    · obtain ⟨hy, hn⟩ := childRows_step he3
      exact Or.inr ⟨e3.1, hy, by rw [hz3]; exact hn⟩
  · obtain ⟨hy, hn⟩ := parentRows_step he2
    exact Or.inr ⟨e2.2, hy, by rw [hz2]; exact hn⟩

theorem subgraphLayer_mem_next {concepts layer : List String} {E : List Edge}
    {dir : SubDir} {maxNodes : Nat} {st : SubState} {z : String}
    (hz : z ∈ (subgraphLayer concepts E dir maxNodes layer st).2) :
    ∃ y ∈ layer, z ∈ neighborIds E dir.toPathDir y := by
  unfold subgraphLayer at hz
  rcases (processParentRows_mem maxNodes _ _ _).2 z hz with hz2 | ⟨e2, he2, hz2⟩
  · rcases (processChildRows_mem maxNodes _ _ _).2 z hz2 with hz3 | ⟨e3, he3, hz3⟩
    · simp at hz3
    · obtain ⟨hy, hn⟩ := childRows_step he3
      exact ⟨e3.1, hy, by rw [hz3]; exact hn⟩
  · obtain ⟨hy, hn⟩ := parentRows_step he2
    exact ⟨e2.2, hy, by rw [hz2]; exact hn⟩

theorem bfsTraverse_reach (concepts : List String) (E : List Edge) (dir : SubDir)
    (maxNodes : Nat) :
    ∀ (depthLeft : Nat) (layer : List String) (st : SubState),
      ∀ x ∈ (bfsTraverse concepts E dir maxNodes depthLeft layer st).nodes,
        x ∈ st.nodes ∨
          ∃ y ∈ layer, ∃ k, 1 ≤ k ∧ k ≤ depthLeft ∧ Steps E dir.toPathDir y x k := by
  intro depthLeft
  induction depthLeft with
  | zero =>
    intro layer st x hx
    exact Or.inl (by simpa [bfsTraverse] using hx)
  | succ d ih =>
    intro layer st x hx
    rw [bfsTraverse] at hx
    split_ifs at hx with h0 h1
    · exact Or.inl hx
    · exact Or.inl hx
    · rcases ih _ _ x hx with hx2 | ⟨y2, hy2, k, hk1, hk2, hsteps⟩
      · rcases subgraphLayer_mem_nodes hx2 with hx3 | ⟨y, hy, hn⟩
        · exact Or.inl hx3
        · exact Or.inr ⟨y, hy, 1, le_rfl, Nat.succ_le_succ (Nat.zero_le d),
            .head hn (.refl x)⟩
      · obtain ⟨y, hy, hn⟩ := subgraphLayer_mem_next hy2
        exact Or.inr ⟨y, hy, k + 1, Nat.le_add_left 1 k, Nat.succ_le_succ hk2,
          .head hn hsteps⟩

/-- C7 amended: the subgraph BFS stops at the depth bound and at the node cap,
whichever binds first: the result never exceeds maxNodes nodes and every
returned node lies within depth direction respecting hops of the center; when
the cap binds the metadata reports truncated = true together with the
configured maxNodes value in truncatedNodes (the node count kept, not the
count cut off). -/
theorem C7_subgraph_truncation_semantics (concepts : List String) (E : List Edge)
    (nodeId : String) (depth : Nat) (dir : SubDir) (maxNodes : Nat) (r : SubgraphResult)
    (hok : getSubgraph concepts E nodeId depth dir maxNodes = .ok r)
    (hm : 1 ≤ maxNodes) :
    r.nodes.length ≤ maxNodes ∧
      r.metadata.truncated = decide (maxNodes ≤ r.nodes.length) ∧
      r.metadata.truncatedNodes = (if maxNodes ≤ r.nodes.length then maxNodes else 0) ∧
      ∀ x ∈ r.nodes, x = nodeId ∨
        ∃ k, 1 ≤ k ∧ k ≤ depth ∧ Steps E dir.toPathDir nodeId x k := by
  unfold getSubgraph at hok
  split_ifs at hok with hc
  · rcases hok with hok
    injection hok with hok
    subst hok
    refine ⟨?_, rfl, ?_, ?_⟩
    · exact bfsTraverse_nodes_le concepts E dir maxNodes depth [nodeId]
        ⟨[nodeId], [], [nodeId]⟩ (by simpa using hm)
    · simp only [decide_eq_true_eq]
    · intro x hx
      rcases bfsTraverse_reach concepts E dir maxNodes depth [nodeId]
          ⟨[nodeId], [], [nodeId]⟩ x hx with hx2 | ⟨y, hy, k, hk1, hk2, hs⟩
      · exact Or.inl (by simpa using hx2)
      · have hy2 : y = nodeId := by simpa using hy
        exact Or.inr ⟨k, hk1, hk2, hy2 ▸ hs⟩

/-- The C7 amended statement applied at the counterexample input. -/
theorem C7_subgraph_truncation_semantics_witness :
    ((⟨["a", "b"], [("a", "b")], ⟨2, 1, 1, true, 2⟩⟩ : SubgraphResult).nodes.length ≤ 2) ∧
      ∀ x ∈ (⟨["a", "b"], [("a", "b")], ⟨2, 1, 1, true, 2⟩⟩ : SubgraphResult).nodes,
        x = "a" ∨ ∃ k, 1 ≤ k ∧ k ≤ 1 ∧
          Steps [("a", "b"), ("a", "c"), ("a", "d"), ("a", "e")]
            SubDir.down.toPathDir "a" x k := by
  have h := C7_subgraph_truncation_semantics ["a", "b", "c", "d", "e"]
    [("a", "b"), ("a", "c"), ("a", "d"), ("a", "e")] "a" 1 .down 2
    ⟨["a", "b"], [("a", "b")], ⟨2, 1, 1, true, 2⟩⟩ rfl (by decide)
  exact ⟨h.1, h.2.2.2⟩

/-!
Shortest path correctness. The single source BFS of
GraphService.findShortestPath returns a direction respecting path of minimal
hop count whenever a path of length at most maxLength exists. We first prove
facts about walks, association list lookups and recorded parent chains, then
the frontier cut argument, then the behavior of one neighbor scan, and
finally the loop itself.
-/

theorem Steps.snoc {E : List Edge} {dir : PathDir} {f w w1 : String} {n : Nat}
    (h : Steps E dir f w n) (hn : w1 ∈ neighborIds E dir w) :
    Steps E dir f w1 (n + 1) := by
  induction h with
  | refl x => exact .head hn (.refl w1)
  | head h1 _ ih => exact .head h1 (ih hn)

theorem Steps.eq_of_zero {E : List Edge} {dir : PathDir} {x y : String}
    (h : Steps E dir x y 0) : x = y := by
  cases h
  rfl

theorem Steps.succ_inv {E : List Edge} {dir : PathDir} {x z : String} {n : Nat}
    (h : Steps E dir x z (n + 1)) :
    ∃ y, y ∈ neighborIds E dir x ∧ Steps E dir y z n := by
  cases h with
  | head h1 h2 => exact ⟨_, h1, h2⟩

theorem exists_minSteps {E : List Edge} {dir : PathDir} {f x : String} {n : Nat}
    (h : Steps E dir f x n) : ∃ m, minSteps E dir f x m ∧ m ≤ n := by
  classical
  have hex : ∃ k, Steps E dir f x k := ⟨n, h⟩
  exact ⟨Nat.find hex, ⟨Nat.find_spec hex, fun j hj => Nat.find_min' hex hj⟩,
    Nat.find_min' hex h⟩

theorem minSteps_unique {E : List Edge} {dir : PathDir} {f x : String} {m1 m2 : Nat}
    (h1 : minSteps E dir f x m1) (h2 : minSteps E dir f x m2) : m1 = m2 :=
  Nat.le_antisymm (h1.2 _ h2.1) (h2.2 _ h1.1)

theorem minSteps_self (E : List Edge) (dir : PathDir) (f : String) :
    minSteps E dir f f 0 :=
  ⟨.refl f, fun m _ => Nat.zero_le m⟩

theorem mem_nodesOf_of_neighbor {E : List Edge} {dir : PathDir} {u n : String}
    (h : n ∈ neighborIds E dir u) : n ∈ nodesOf E := by
  unfold neighborIds at h
  unfold nodesOf
  rcases List.mem_append.mp h with h | h
  · refine List.mem_append.mpr (Or.inr ?_)
    split at h
    · unfold childrenIds at h
      rcases List.mem_map.mp h with ⟨e, he, he2⟩
      exact List.mem_map.mpr ⟨e, (List.mem_filter.mp he).1, he2⟩
    · simp at h
  · refine List.mem_append.mpr (Or.inl ?_)
    split at h
    · unfold parentIds at h
      rcases List.mem_map.mp h with ⟨e, he, he2⟩
      exact List.mem_map.mpr ⟨e, (List.mem_filter.mp he).1, he2⟩
    · simp at h

/-!
Association list lookups over the visited map.
-/

theorem lookup_append_some {l l2 : List (String × Option String)} {k : String}
    {v : Option String} (h : l.lookup k = some v) : (l ++ l2).lookup k = some v := by
  induction l with
  | nil => simp [List.lookup] at h
  | cons a l ih =>
    obtain ⟨k1, v1⟩ := a
    rw [List.cons_append]
    by_cases hk : k == k1
    · simpa [List.lookup, hk] using by simpa [List.lookup, hk] using h
    · rw [List.lookup] at h ⊢
      simp only [hk] at h ⊢
      exact ih h

theorem lookup_append_none {l l2 : List (String × Option String)} {k : String}
    (h : l.lookup k = none) : (l ++ l2).lookup k = l2.lookup k := by
  induction l with
  | nil => simp
  | cons a l ih =>
    obtain ⟨k1, v1⟩ := a
    rw [List.cons_append]
    by_cases hk : k == k1
    · simp [List.lookup, hk] at h
    · rw [List.lookup] at h ⊢
      simp only [hk] at h ⊢
      exact ih h

theorem lookup_none_iff {l : List (String × Option String)} {k : String} :
    l.lookup k = none ↔ k ∉ l.map Prod.fst := by
  induction l with
  | nil => simp [List.lookup]
  | cons a l ih =>
    obtain ⟨k1, v1⟩ := a
    by_cases hk : k == k1
    · have hk2 : k = k1 := by simpa using hk
      simp [List.lookup, hk, hk2]
    · have hk2 : ¬ k = k1 := by simpa using hk
      rw [List.lookup]
      simp only [hk]
      simpa [hk2] using ih

theorem mem_keys_of_lookup_some {l : List (String × Option String)} {k : String}
    {v : Option String} (h : l.lookup k = some v) : k ∈ l.map Prod.fst := by
  by_contra hc
  rw [← lookup_none_iff] at hc
  rw [hc] at h
  cases h

theorem lookup_isSome_iff {l : List (String × Option String)} {k : String} :
    (l.lookup k).isSome = true ↔ k ∈ l.map Prod.fst := by
  rcases hl : l.lookup k with _ | v
  · simp [lookup_none_iff.mp hl]
  · simp [mem_keys_of_lookup_some hl]

theorem lookup_append_none_iff {l l2 : List (String × Option String)} {k : String} :
    (l ++ l2).lookup k = none ↔ l.lookup k = none ∧ l2.lookup k = none := by
  constructor
  · intro h
    rcases hl : l.lookup k with _ | v
    · rw [lookup_append_none hl] at h
      exact ⟨rfl, h⟩
    · rw [lookup_append_some hl] at h
      cases h
  · intro ⟨h1, h2⟩
    rw [lookup_append_none h1]
    exact h2

theorem lookup_pairMap_of_mem {fresh : List String} {k : String} {v : Option String}
    (h : k ∈ fresh) : (fresh.map (fun n => (n, v))).lookup k = some v := by
  induction fresh with
  | nil => simp at h
  | cons a fresh ih =>
    by_cases hk : k = a
    · simp [List.lookup, hk]
    · rcases List.mem_cons.mp h with h2 | h2
      · exact absurd h2 hk
      · rw [List.map_cons, List.lookup]
        have hkb : (k == a) = false := by simpa using hk
        simp only [hkb]
        exact ih h2

theorem lookup_pairMap_of_not_mem {fresh : List String} {k : String} {v : Option String}
    (h : k ∉ fresh) : (fresh.map (fun n => (n, v))).lookup k = none := by
  induction fresh with
  | nil => simp [List.lookup]
  | cons a fresh ih =>
    rw [List.map_cons, List.lookup]
    have hka : ¬ k = a := fun h2 => h (h2 ▸ List.mem_cons_self a fresh)
    have hkb : (k == a) = false := by simpa using hka
    simp only [hkb]
    exact ih (fun h2 => h (List.mem_cons_of_mem a h2))

/-!
Recorded parent chains and the path reconstruction loop.
-/

theorem PChain.ne_nil {vis : List (String × Option String)} {x : String}
    {p : List String} (h : PChain vis x p) : p ≠ [] := by
  cases h <;> simp

theorem PChain_extend {vis ext : List (String × Option String)} {x : String}
    {p : List String} (h : PChain vis x p) :
    PChain (vis ++ ext) x p := by
  induction h with
  | root h1 => exact .root (lookup_append_some h1)
  | link h1 _ ih => exact .link (lookup_append_some h1) ih

theorem reconGo_eq_chain {vis : List (String × Option String)} {x : String}
    {p : List String} (h : PChain vis x p) :
    ∀ (fuel : Nat) (acc : List String), p.length ≤ fuel + 1 →
      reconGo vis fuel x acc = p ++ acc := by
  induction h with
  | @root x h1 =>
    intro fuel acc _
    cases fuel with
    | zero => simp [reconGo]
    | succ g => simp [reconGo, h1]
  | @link x u p h1 h2 ih =>
    intro fuel acc hlen
    have hne : p ≠ [] := h2.ne_nil
    have hpos : 1 ≤ p.length := List.length_pos.mpr hne
    rw [List.length_append, List.length_singleton] at hlen
    cases fuel with
    | zero => omega
    | succ g =>
      rw [reconGo]
      simp only [h1]
      rw [ih g (x :: acc) (by omega)]
      simp

theorem reconstructPath_eq {vis : List (String × Option String)} {t : String}
    {p : List String} (h : PChain vis t p) (hlen : p.length ≤ vis.length + 1) :
    reconstructPath vis t = p := by
  unfold reconstructPath
  rw [reconGo_eq_chain h vis.length [] hlen, List.append_nil]

/-!
The frontier cut: any direction respecting walk within the depth bound from a
visited node to an unvisited node can be rerouted through a queued node at no
extra cost.
-/

theorem frontier_reach (E : List Edge) (dir : PathDir) (f : String) (maxLength : Nat)
    (vis : List (String × Option String)) (q : List (String × Nat))
    (hdist : ∀ n ∈ vis.map Prod.fst, ∃ dn, minSteps E dir f n dn)
    (hqmem : ∀ pr ∈ q, pr.1 ∈ vis.map Prod.fst ∧ minSteps E dir f pr.1 pr.2)
    (hExp : ∀ y dy, y ∈ vis.map Prod.fst → minSteps E dir f y dy → dy < maxLength →
      (∀ pr ∈ q, pr.1 ≠ y) → ∀ w ∈ neighborIds E dir y, w ∈ vis.map Prod.fst) :
    ∀ (j : Nat) (w x : String) (dw : Nat), w ∈ vis.map Prod.fst →
      minSteps E dir f w dw → Steps E dir w x j → dw + j ≤ maxLength →
      x ∉ vis.map Prod.fst →
      ∃ y dy j2, (y, dy) ∈ q ∧ minSteps E dir f y dy ∧ Steps E dir y x j2 ∧
        dy + j2 ≤ dw + j := by
  intro j
  induction j with
  | zero =>
    intro w x dw hw _ hsteps _ hx
    exact absurd (hsteps.eq_of_zero ▸ hw) hx
  | succ j ih =>
    intro w x dw hw hdw hsteps hb hx
    by_cases hwq : ∀ pr ∈ q, pr.1 ≠ w
    · obtain ⟨w1, hw1n, hw1s⟩ := hsteps.succ_inv
      have hlt : dw < maxLength := by omega
      have hw1v : w1 ∈ vis.map Prod.fst := hExp w dw hw hdw hlt hwq w1 hw1n
      obtain ⟨dw1, hdw1⟩ := hdist w1 hw1v
      have hle : dw1 ≤ dw + 1 := hdw1.2 _ (hdw.1.snoc hw1n)
      obtain ⟨y, dy, j2, hyq, hymin, hys, hyb⟩ :=
        ih w1 x dw1 hw1v hdw1 hw1s (by omega) hx
      exact ⟨y, dy, j2, hyq, hymin, hys, by omega⟩
    · push_neg at hwq
      obtain ⟨pr, hpr, hpr1⟩ := hwq
      obtain ⟨k1, k2⟩ := pr
      obtain ⟨_, hmin⟩ := hqmem _ hpr
      have hk1 : k1 = w := hpr1
      subst hk1
      have hdy : k2 = dw := minSteps_unique hmin hdw
      exact ⟨k1, k2, j + 1, hpr, hmin, hsteps, by omega⟩

/-- What one neighbor scan does: when the target is not discovered, the
visited map and the queue both grow by the same batch of fresh neighbors,
each recorded with parent u and depth d + 1, and afterwards every scanned
neighbor is visited; when the target is discovered, the scan stops there,
the target is recorded with parent u and not enqueued. -/
theorem scanNeighbors_spec (toId u : String) (d : Nat) :
    ∀ (ns : List String) (vis : List (String × Option String)) (q : List (String × Nat)),
      ((scanNeighbors toId u d ns vis q).2.2 = false →
        ∃ fresh : List String,
          (scanNeighbors toId u d ns vis q).1 = vis ++ fresh.map (fun n => (n, some u)) ∧
          (scanNeighbors toId u d ns vis q).2.1 = q ++ fresh.map (fun n => (n, d + 1)) ∧
          fresh.Nodup ∧
          (∀ n ∈ fresh, n ∈ ns ∧ vis.lookup n = none ∧ n ≠ toId) ∧
          (∀ n ∈ ns, (((scanNeighbors toId u d ns vis q).1.lookup n)).isSome = true)) ∧
      ((scanNeighbors toId u d ns vis q).2.2 = true →
        ∃ fresh : List String,
          (scanNeighbors toId u d ns vis q).1 =
            (vis ++ fresh.map (fun n => (n, some u))) ++ [(toId, some u)] ∧
          (scanNeighbors toId u d ns vis q).2.1 = q ++ fresh.map (fun n => (n, d + 1)) ∧
          fresh.Nodup ∧
          (∀ n ∈ fresh, n ∈ ns ∧ vis.lookup n = none ∧ n ≠ toId) ∧
          vis.lookup toId = none ∧ toId ∈ ns) := by
  intro ns
  induction ns with
  | nil =>
    intro vis q
    constructor
    · intro _
      refine ⟨[], by simp [scanNeighbors], by simp [scanNeighbors], by simp, by simp, by simp⟩
    · intro h
      simp [scanNeighbors] at h
  | cons n ns ih =>
    intro vis q
    by_cases hvn : (vis.lookup n).isSome
    · have hrw : scanNeighbors toId u d (n :: ns) vis q = scanNeighbors toId u d ns vis q := by
        rw [scanNeighbors]
        simp [hvn]
      rw [hrw]
      obtain ⟨ihF, ihT⟩ := ih vis q
      constructor
      · intro hfl
        obtain ⟨fresh, h1, h2, h3, h4, h5⟩ := ihF hfl
        refine ⟨fresh, h1, h2, h3, fun n2 hn2 => ?_, fun n2 hn2 => ?_⟩
        · obtain ⟨ha, hb, hc⟩ := h4 n2 hn2
          exact ⟨List.mem_cons_of_mem n ha, hb, hc⟩
        · rcases List.mem_cons.mp hn2 with hn3 | hn3
          · subst hn3
            rcases Option.isSome_iff_exists.mp hvn with ⟨v, hv⟩
            rw [h1, lookup_append_some hv]
            rfl
          · exact h5 n2 hn3
      · intro htr
        obtain ⟨fresh, h1, h2, h3, h4, h5, h6⟩ := ihT htr
        refine ⟨fresh, h1, h2, h3, fun n2 hn2 => ?_, h5, List.mem_cons_of_mem n h6⟩
        obtain ⟨ha, hb, hc⟩ := h4 n2 hn2
        exact ⟨List.mem_cons_of_mem n ha, hb, hc⟩
    · have hnone : vis.lookup n = none := Option.not_isSome_iff_eq_none.mp hvn
      by_cases hto : n = toId
      · subst hto
        have hrw : scanNeighbors n u d (n :: ns) vis q = (vis ++ [(n, some u)], q, true) := by
          rw [scanNeighbors]
          simp [hnone]
        constructor
        · intro hfl
          rw [hrw] at hfl
          simp at hfl
        · intro _
          refine ⟨[], by rw [hrw]; simp, by rw [hrw]; simp, by simp, by simp, hnone,
            List.mem_cons_self _ _⟩
      · have hrw : scanNeighbors toId u d (n :: ns) vis q =
            scanNeighbors toId u d ns (vis ++ [(n, some u)]) (q ++ [(n, d + 1)]) := by
          rw [scanNeighbors]
          simp [hvn, hto]
        rw [hrw]
        obtain ⟨ihF, ihT⟩ := ih (vis ++ [(n, some u)]) (q ++ [(n, d + 1)])
        constructor
        · intro hfl
          obtain ⟨fresh, h1, h2, h3, h4, h5⟩ := ihF hfl
          have hfreshn : n ∉ fresh := by
            intro hmem
            obtain ⟨_, hb, _⟩ := h4 n hmem
            rw [lookup_append_none_iff] at hb
            simp [List.lookup] at hb
          refine ⟨n :: fresh, ?_, ?_, List.nodup_cons.mpr ⟨hfreshn, h3⟩,
            fun n2 hn2 => ?_, fun n2 hn2 => ?_⟩
          · rw [h1]
            simp
          · rw [h2]
            simp
          · rcases List.mem_cons.mp hn2 with hn3 | hn3
            · subst hn3
              exact ⟨List.mem_cons_self _ _, hnone, hto⟩
            · obtain ⟨ha, hb, hc⟩ := h4 n2 hn3
              rw [lookup_append_none_iff] at hb
              exact ⟨List.mem_cons_of_mem n ha, hb.1, hc⟩
          · rcases List.mem_cons.mp hn2 with hn3 | hn3
            · subst hn3
              rw [h1, List.append_assoc, lookup_append_none hnone]
              simp [List.lookup]
            · exact h5 n2 hn3
        · intro htr
          obtain ⟨fresh, h1, h2, h3, h4, h5, h6⟩ := ihT htr
          have hfreshn : n ∉ fresh := by
            intro hmem
            obtain ⟨_, hb, _⟩ := h4 n hmem
            rw [lookup_append_none_iff] at hb
            simp [List.lookup] at hb
          rw [lookup_append_none_iff] at h5
          refine ⟨n :: fresh, ?_, ?_, List.nodup_cons.mpr ⟨hfreshn, h3⟩,
            fun n2 hn2 => ?_, h5.1, List.mem_cons_of_mem n h6⟩
          · rw [h1]
            simp
          · rw [h2]
            simp
          · rcases List.mem_cons.mp hn2 with hn3 | hn3
            · subst hn3
              exact ⟨List.mem_cons_self _ _, hnone, hto⟩
            · obtain ⟨ha, hb, hc⟩ := h4 n2 hn3
              rw [lookup_append_none_iff] at hb
              exact ⟨List.mem_cons_of_mem n ha, hb.1, hc⟩

/-!
Queue layering facts and the visited size bound.
-/

theorem QueueLayered.tail {d : Nat} {x : String × Nat} {r : List (String × Nat)}
    (h : QueueLayered d (x :: r)) : QueueLayered d r := by
  obtain ⟨qa, qb, heq, ha, hb⟩ := h
  cases qa with
  | nil =>
    refine ⟨[], r, by simp, by simp, fun pr hpr => ?_⟩
    simp at heq
    exact hb pr (heq ▸ List.mem_cons_of_mem x hpr)
  | cons a qa =>
    rw [List.cons_append] at heq
    injection heq with h1 h2
    exact ⟨qa, qb, h2, fun pr hpr => ha pr (List.mem_cons_of_mem a hpr), hb⟩

theorem QueueLayered.head_le {d du : Nat} {u : String} {r : List (String × Nat)}
    (h : QueueLayered d ((u, du) :: r)) : ∀ pr ∈ (u, du) :: r, du ≤ pr.2 := by
  obtain ⟨qa, qb, heq, ha, hb⟩ := h
  cases qa with
  | nil =>
    simp at heq
    intro pr hpr
    have h1 := hb pr (heq ▸ hpr)
    have h2 := hb (u, du) (heq ▸ List.mem_cons_self _ _)
    simp at h2
    omega
  | cons a qa =>
    rw [List.cons_append] at heq
    injection heq with h1 h2
    have hdu : du = d := by
      have := ha a (List.mem_cons_self _ _)
      rw [← h1] at this
      exact this
    intro pr hpr
    rcases List.mem_cons.mp hpr with hpr | hpr
    · subst hpr
      rfl
    · rw [h2] at hpr
      rcases List.mem_append.mp hpr with hpr | hpr
      · have := ha pr (List.mem_cons_of_mem a hpr)
        omega
      · have := hb pr hpr
        omega

theorem QueueLayered.extend {d du : Nat} {u : String} {rest news : List (String × Nat)}
    (h : QueueLayered d ((u, du) :: rest)) (hn : ∀ pr ∈ news, pr.2 = du + 1) :
    QueueLayered du (rest ++ news) := by
  obtain ⟨qa, qb, heq, ha, hb⟩ := h
  cases qa with
  | nil =>
    simp at heq
    have hdu : du = d + 1 := by
      have := hb (u, du) (heq ▸ List.mem_cons_self _ _)
      simpa using this
    refine ⟨rest, news, rfl, fun pr hpr => ?_, hn⟩
    have := hb pr (heq ▸ List.mem_cons_of_mem _ hpr)
    omega
  | cons a qa =>
    rw [List.cons_append] at heq
    injection heq with h1 h2
    have hdu : du = d := by
      have := ha a (List.mem_cons_self _ _)
      rw [← h1] at this
      exact this
    subst hdu
    refine ⟨qa, qb ++ news, by rw [h2, List.append_assoc],
      fun pr hpr => ha pr (List.mem_cons_of_mem a hpr), fun pr hpr => ?_⟩
    rcases List.mem_append.mp hpr with hpr | hpr
    · exact hb pr hpr
    · exact hn pr hpr

theorem keys_pairMap {β : Type} (fresh : List String) (v : β) :
    (fresh.map (fun n => (n, v))).map Prod.fst = fresh := by
  rw [List.map_map]
  have h : (Prod.fst ∘ fun n : String => (n, v)) = id := rfl
  rw [h, List.map_id]

theorem keys_length_le {E : List Edge} {f : String} {vis : List (String × Option String)}
    (hnd : (vis.map Prod.fst).Nodup)
    (hb : ∀ k ∈ vis.map Prod.fst, k = f ∨ k ∈ nodesOf E) :
    vis.length ≤ 2 * E.length + 1 := by
  have hsub : vis.map Prod.fst ⊆ f :: nodesOf E := by
    intro k hk
    rcases hb k hk with h | h
    · exact h ▸ List.mem_cons_self _ _
    · exact List.mem_cons_of_mem _ h
  have hle := (List.subperm_of_subset hnd hsub).length_le
  rw [List.length_map] at hle
  have hlen : (f :: nodesOf E).length = E.length + E.length + 1 := by
    simp [nodesOf]
  omega

/-- The BFS loop, run from a state satisfying the invariant with the target
unvisited, returns the reconstructed path the first time it discovers the
target, and that path is a valid direction respecting path of exactly the
minimal hop count m, provided m fits in the depth bound. -/
theorem bfsLoop_finds (E : List Edge) (dir : PathDir) (f toId : String) (maxLength : Nat)
    (m : Nat) (hm : minSteps E dir f toId m) (hml : m ≤ maxLength) :
    ∀ (fuel : Nat) (vis : List (String × Option String)) (q : List (String × Nat)) (d : Nat),
      BfsInv E dir f maxLength vis q →
      QueueLayered d q →
      toId ∉ vis.map Prod.fst →
      q.length + (2 * E.length + 1 - vis.length) < fuel →
      ∃ p, bfsLoop E dir maxLength toId fuel vis q = some (some p) ∧
        p.head? = some f ∧ p.getLast? = some toId ∧
        List.Chain' (fun a b => b ∈ neighborIds E dir a) p ∧ p.length = m + 1 := by
  intro fuel
  induction fuel with
  | zero =>
    intro vis q d _ _ _ hmu
    omega
  | succ fuel ih =>
    intro vis q d hInv hQL htoId hmu
    have hfkeys : f ∈ vis.map Prod.fst := mem_keys_of_lookup_some hInv.root
    have hdist : ∀ n ∈ vis.map Prod.fst, ∃ dn, minSteps E dir f n dn := by
      intro n hn
      obtain ⟨dn, p, hmin, _⟩ := hInv.chains n hn
      exact ⟨dn, hmin⟩
    rcases q with _ | ⟨⟨u, du⟩, rest⟩
    · exfalso
      obtain ⟨y, dy, j2, hyq, _⟩ := frontier_reach E dir f maxLength vis [] hdist
        hInv.qmem hInv.expCl m f toId 0 hfkeys (minSteps_self E dir f) hm.1
        (by omega) htoId
      simp at hyq
    · obtain ⟨huv, hdu⟩ := hInv.qmem (u, du) (List.mem_cons_self _ _)
      by_cases hskip : maxLength ≤ du
      · have hrw : bfsLoop E dir maxLength toId (fuel + 1) vis ((u, du) :: rest) =
            bfsLoop E dir maxLength toId fuel vis rest := by
          rw [bfsLoop, if_pos hskip]
        rw [hrw]
        refine ih vis rest d ⟨hInv.nodup, hInv.root, hInv.chains,
          fun pr hpr => hInv.qmem pr (List.mem_cons_of_mem _ hpr), ?_, ?_, hInv.visBound⟩
          hQL.tail htoId ?_
        · have := hInv.qnodup
          simp only [List.map_cons] at this
          exact (List.nodup_cons.mp this).2
        · intro y dy hy hmin hlt hnot w hw
          by_cases hyu : y = u
          · subst hyu
            have hdy : dy = du := minSteps_unique hmin hdu
            exact absurd hlt (by omega)
          · refine hInv.expCl y dy hy hmin hlt ?_ w hw
            intro pr hpr
            rcases List.mem_cons.mp hpr with hpr | hpr
            · subst hpr
              exact fun he => hyu he.symm
            · exact hnot pr hpr
        · simp only [List.length_cons] at hmu
          omega
      · push_neg at hskip
        have hfresh : ∀ n ∈ neighborIds E dir u, vis.lookup n = none →
            minSteps E dir f n (du + 1) := by
          intro n hn hnone
          obtain ⟨dn, hdn, hdnle⟩ := exists_minSteps (hdu.1.snoc hn)
          rcases Nat.lt_or_ge dn (du + 1) with hlt | hge
          · exfalso
            obtain ⟨y, dy, j2, hyq, hymin, hys, hyb⟩ := frontier_reach E dir f maxLength vis
              ((u, du) :: rest) hdist hInv.qmem hInv.expCl dn f n 0 hfkeys
              (minSteps_self E dir f) hdn.1 (by omega) (lookup_none_iff.mp hnone)
            have hge2 : du ≤ dy := hQL.head_le (y, dy) hyq
            have hj2 : j2 = 0 := by omega
            rw [hj2] at hys
            have hyn : y = n := hys.eq_of_zero
            exact (lookup_none_iff.mp hnone) (hyn ▸ (hInv.qmem _ hyq).1)
          · have hdn2 : dn = du + 1 := by omega
            exact hdn2 ▸ hdn
        obtain ⟨dnu, pu, hminu, hchu, hheadu, hlastu, hchainu, hlenu, hndu, hsubu⟩ :=
          hInv.chains u huv
        have hdnu : dnu = du := minSteps_unique hminu hdu
        rw [hdnu] at hminu hlenu
        rcases hsc : scanNeighbors toId u du (neighborIds E dir u) vis rest
          with ⟨vis2, q2, found⟩
        obtain ⟨specF, specT⟩ := scanNeighbors_spec toId u du (neighborIds E dir u) vis rest
        rw [hsc] at specF specT
        dsimp only at specF specT
        cases found with
        | true =>
          obtain ⟨fresh, h1, h2, h3, h4, h5, h6⟩ := specT rfl
          have hchu2 : PChain vis2 u pu := by
            rw [h1]
            exact PChain_extend (PChain_extend hchu)
          have hlookto : vis2.lookup toId = some (some u) := by
            rw [h1]
            have hA : (vis ++ fresh.map (fun n => (n, some u))).lookup toId = none := by
              rw [lookup_append_none h5]
              exact lookup_pairMap_of_not_mem (fun hmem => (h4 toId hmem).2.2 rfl)
            rw [lookup_append_none hA]
            simp [List.lookup]
          have hchto : PChain vis2 toId (pu ++ [toId]) := .link hlookto hchu2
          have hpu_ne : pu ≠ [] := hchu.ne_nil
          have hto_not_pu : toId ∉ pu := fun hmem => htoId (hsubu toId hmem)
          have hnd2 : (pu ++ [toId]).Nodup := by
            rw [List.nodup_append]
            exact ⟨hndu, by simp, by simpa [List.disjoint_singleton] using hto_not_pu⟩
          have hmin_to : minSteps E dir f toId (du + 1) := hfresh toId h6 h5
          have hmval : m = du + 1 := minSteps_unique hm hmin_to
          have hkeys2 : vis2.map Prod.fst = (vis.map Prod.fst ++ fresh) ++ [toId] := by
            rw [h1, List.map_append, List.map_append, keys_pairMap]
            rfl
          have hsub2 : ∀ z ∈ pu ++ [toId], z ∈ vis2.map Prod.fst := by
            intro z hz
            rw [hkeys2]
            rcases List.mem_append.mp hz with hz | hz
            · exact List.mem_append.mpr (Or.inl (List.mem_append.mpr (Or.inl (hsubu z hz))))
            · simp at hz
              subst hz
              simp
          have hlen2 : (pu ++ [toId]).length ≤ vis2.length + 1 := by
            have hsp := (List.subperm_of_subset hnd2 (fun z hz => hsub2 z hz)).length_le
            rw [List.length_map] at hsp
            omega
          have hrec : reconstructPath vis2 toId = pu ++ [toId] :=
            reconstructPath_eq hchto hlen2
          have hloop : bfsLoop E dir maxLength toId (fuel + 1) vis ((u, du) :: rest) =
              some (some (reconstructPath vis2 toId)) := by
            rw [bfsLoop, if_neg (by omega), hsc]
          refine ⟨pu ++ [toId], ?_, ?_, ?_, ?_, ?_⟩
          · rw [hloop, hrec]
          · rw [List.head?_append_of_ne_nil pu hpu_ne]
            exact hheadu
          · rw [List.getLast?_append_of_ne_nil pu
              (show ([toId] : List String) ≠ [] by simp)]
            simp
          · rw [List.chain'_append]
            refine ⟨hchainu, by simp, ?_⟩
            intro x hx y hy
            rw [hlastu] at hx
            simp at hx hy
            rw [← hx, ← hy]
            exact h6
          · rw [List.length_append, List.length_singleton, hlenu, hmval]
        | false =>
          obtain ⟨fresh, h1, h2, h3, h4, h5⟩ := specF rfl
          have hkeys2 : vis2.map Prod.fst = vis.map Prod.fst ++ fresh := by
            rw [h1, List.map_append, keys_pairMap]
          have hdisj : ∀ z ∈ fresh, z ∉ vis.map Prod.fst := fun z hz =>
            lookup_none_iff.mp (h4 z hz).2.1
          have hnodup2 : (vis2.map Prod.fst).Nodup := by
            rw [hkeys2]
            exact List.Nodup.append hInv.nodup h3 (fun a ha hb => hdisj a hb ha)
          have hstab : ∀ k v, vis.lookup k = some v → vis2.lookup k = some v := by
            intro k v hk
            rw [h1]
            exact lookup_append_some hk
          have hroot2 : vis2.lookup f = some none := hstab _ _ hInv.root
          have hfreshchain : ∀ n ∈ fresh, vis2.lookup n = some (some u) := by
            intro n hn
            rw [h1, lookup_append_none (h4 n hn).2.1]
            exact lookup_pairMap_of_mem hn
          have hchu2 : PChain vis2 u pu := by
            rw [h1]
            exact PChain_extend hchu
          have hchains2 : ∀ n ∈ vis2.map Prod.fst, ∃ dn p,
              minSteps E dir f n dn ∧ PChain vis2 n p ∧
              p.head? = some f ∧ p.getLast? = some n ∧
              List.Chain' (fun a b => b ∈ neighborIds E dir a) p ∧
              p.length = dn + 1 ∧ p.Nodup ∧ ∀ z ∈ p, z ∈ vis2.map Prod.fst := by
            intro n hn
            rw [hkeys2] at hn
            rcases List.mem_append.mp hn with hn | hn
            · obtain ⟨dn, p, hmin, hch, hh, hl, hc, hlen, hnd, hsub⟩ := hInv.chains n hn
              refine ⟨dn, p, hmin, by rw [h1]; exact PChain_extend hch, hh, hl, hc, hlen,
                hnd, ?_⟩
              intro z hz
              rw [hkeys2]
              exact List.mem_append.mpr (Or.inl (hsub z hz))
            · have hnn : n ∈ neighborIds E dir u := (h4 n hn).1
              have hminn : minSteps E dir f n (du + 1) := hfresh n hnn (h4 n hn).2.1
              have hchn : PChain vis2 n (pu ++ [n]) := .link (hfreshchain n hn) hchu2
              have hnp : n ∉ pu := fun hmem => hdisj n hn (hsubu n hmem)
              refine ⟨du + 1, pu ++ [n], hminn, hchn, ?_, ?_, ?_, ?_, ?_, ?_⟩
              · rw [List.head?_append_of_ne_nil pu hchu.ne_nil]
                exact hheadu
              · rw [List.getLast?_append_of_ne_nil pu
                  (show ([n] : List String) ≠ [] by simp)]
                simp
              · rw [List.chain'_append]
                refine ⟨hchainu, by simp, ?_⟩
                intro x hx y hy
                rw [hlastu] at hx
                simp at hx hy
                rw [← hx, ← hy]
                exact hnn
              · rw [List.length_append, List.length_singleton, hlenu]
              · rw [List.nodup_append]
                exact ⟨hndu, by simp, by simpa [List.disjoint_singleton] using hnp⟩
              · intro z hz
                rw [hkeys2]
                rcases List.mem_append.mp hz with hz | hz
                · exact List.mem_append.mpr (Or.inl (hsubu z hz))
                · simp at hz
                  subst hz
                  exact List.mem_append.mpr (Or.inr hn)
          have hqmem2 : ∀ pr ∈ q2, pr.1 ∈ vis2.map Prod.fst ∧ minSteps E dir f pr.1 pr.2 := by
            intro pr hpr
            rw [h2] at hpr
            rcases List.mem_append.mp hpr with hpr | hpr
            · obtain ⟨ha, hb⟩ := hInv.qmem pr (List.mem_cons_of_mem _ hpr)
              refine ⟨?_, hb⟩
              rw [hkeys2]
              exact List.mem_append.mpr (Or.inl ha)
            · rcases List.mem_map.mp hpr with ⟨n, hn, hpr2⟩
              subst hpr2
              refine ⟨?_, hfresh n (h4 n hn).1 (h4 n hn).2.1⟩
              rw [hkeys2]
              exact List.mem_append.mpr (Or.inr hn)
          have hqkeys2 : q2.map Prod.fst = rest.map Prod.fst ++ fresh := by
            rw [h2, List.map_append, keys_pairMap]
          have hqnodup2 : (q2.map Prod.fst).Nodup := by
            rw [hqkeys2]
            refine List.Nodup.append ?_ h3 ?_
            · have := hInv.qnodup
              simp only [List.map_cons] at this
              exact (List.nodup_cons.mp this).2
            · intro a ha hb
              rcases List.mem_map.mp ha with ⟨pr, hpr, hpr2⟩
              subst hpr2
              exact hdisj _ hb (hInv.qmem pr (List.mem_cons_of_mem _ hpr)).1
          have hexp2 : ∀ y dy, y ∈ vis2.map Prod.fst → minSteps E dir f y dy →
              dy < maxLength → (∀ pr ∈ q2, pr.1 ≠ y) →
              ∀ w ∈ neighborIds E dir y, w ∈ vis2.map Prod.fst := by
            intro y dy hy hmin hlt hnot w hw
            rw [hkeys2] at hy
            rcases List.mem_append.mp hy with hy | hy
            · by_cases hyu : y = u
              · subst hyu
                have := h5 w hw
                rw [lookup_isSome_iff] at this
                exact this
              · have hold := hInv.expCl y dy hy hmin hlt ?_ w hw
                · rw [hkeys2]
                  exact List.mem_append.mpr (Or.inl hold)
                · intro pr hpr
                  rcases List.mem_cons.mp hpr with hpr2 | hpr2
                  · subst hpr2
                    exact fun he => hyu he.symm
                  · refine hnot pr ?_
                    rw [h2]
                    exact List.mem_append.mpr (Or.inl hpr2)
            · exfalso
              refine hnot (y, du + 1) ?_ rfl
              rw [h2]
              exact List.mem_append.mpr (Or.inr (List.mem_map.mpr ⟨y, hy, rfl⟩))
          have hvb2 : ∀ k ∈ vis2.map Prod.fst, k = f ∨ k ∈ nodesOf E := by
            intro k hk
            rw [hkeys2] at hk
            rcases List.mem_append.mp hk with hk | hk
            · exact hInv.visBound k hk
            · exact Or.inr (mem_nodesOf_of_neighbor (h4 k hk).1)
          have hQL2 : QueueLayered du q2 := by
            rw [h2]
            refine hQL.extend ?_
            intro pr hpr
            rcases List.mem_map.mp hpr with ⟨n, _, hpr2⟩
            rw [← hpr2]
          have hto2 : toId ∉ vis2.map Prod.fst := by
            rw [hkeys2]
            intro hmem
            rcases List.mem_append.mp hmem with hmem | hmem
            · exact htoId hmem
            · exact (h4 toId hmem).2.2 rfl
          have hlen2 : vis2.length ≤ 2 * E.length + 1 := keys_length_le hnodup2 hvb2
          have hlenv2 : vis2.length = vis.length + fresh.length := by
            rw [h1]
            simp
          have hlenq2 : q2.length = rest.length + fresh.length := by
            rw [h2]
            simp
          have hmu2 : q2.length + (2 * E.length + 1 - vis2.length) < fuel := by
            simp only [List.length_cons] at hmu
            omega
          have hloop : bfsLoop E dir maxLength toId (fuel + 1) vis ((u, du) :: rest) =
              bfsLoop E dir maxLength toId fuel vis2 q2 := by
            rw [bfsLoop, if_neg (by omega), hsc]
          rw [hloop]
          exact ih vis2 q2 du ⟨hnodup2, hroot2, hchains2, hqmem2, hqnodup2, hexp2, hvb2⟩
            hQL2 hto2 hmu2

/-- C4: for every graph, whenever a directed path from f to t respecting the
requested direction and of length at most maxLength exists and both endpoints
resolve, findShortestPath returns found with a direction respecting path from
f to t whose reported length (its edge count) is the minimum possible number
of hops; in particular (see the witness) on the chain a to b to c to d with
shortcut a to d the downward query returns length 1, not 3. -/
theorem C4_findShortestPath_minimal (concepts : List String) (E : List Edge)
    (f t : String) (dir : PathDir) (maxLength : Nat) (k : Nat)
    (hf : f ∈ concepts) (ht : t ∈ concepts)
    (hk : Steps E dir f t k) (hkml : k ≤ maxLength) :
    ∃ r p, findShortestPath concepts E f t dir maxLength = .ok r ∧
      r.found = true ∧ r.path = some p ∧
      p.head? = some f ∧ p.getLast? = some t ∧
      List.Chain' (fun a b => b ∈ neighborIds E dir a) p ∧
      r.length = p.length - 1 ∧ Steps E dir f t r.length ∧
      ∀ j, Steps E dir f t j → r.length ≤ j := by
  obtain ⟨m, hm, hmk⟩ := exists_minSteps hk
  have hcf : concepts.contains f = true := List.elem_iff.mpr hf
  have hct : concepts.contains t = true := List.elem_iff.mpr ht
  by_cases hft : f = t
  · subst hft
    refine ⟨⟨true, some [f], 0⟩, [f], ?_, rfl, rfl, rfl, by simp, by simp, rfl, .refl f,
      fun j _ => Nat.zero_le j⟩
    unfold findShortestPath
    simp [hcf, hf]
  · have hInit : BfsInv E dir f maxLength [(f, none)] [(f, 0)] := by
      refine ⟨by simp, by simp [List.lookup], ?_, ?_, by simp, ?_, ?_⟩
      · intro n hn
        simp at hn
        have hn2 : f = n := hn.symm
        subst hn2
        exact ⟨0, [f], minSteps_self E dir f, .root (by simp [List.lookup]), rfl, by simp,
          by simp, rfl, by simp, by simp⟩
      · intro pr hpr
        simp at hpr
        subst hpr
        exact ⟨by simp, minSteps_self E dir f⟩
      · intro y dy hy hmin hlt hnot w hw
        simp at hy
        exact absurd hy.symm (hnot (f, 0) (by simp))
      · intro k2 hk2
        simp at hk2
        exact Or.inl hk2
    have hQL0 : QueueLayered 0 [(f, 0)] := ⟨[(f, 0)], [], by simp, by simp, by simp⟩
    have hto0 : t ∉ (([(f, none)] : List (String × Option String)).map Prod.fst) := by
      simp
      exact fun h => hft h.symm
    have hmu0 : ([(f, 0)] : List (String × Nat)).length +
        (2 * E.length + 1 - ([(f, none)] : List (String × Option String)).length) <
        2 * E.length + 2 := by
      simp
      omega
    obtain ⟨p, hrun, hh, hl, hc, hlen⟩ := bfsLoop_finds E dir f t maxLength m hm
      (le_trans hmk hkml) (2 * E.length + 2) [(f, none)] [(f, 0)] 0 hInit hQL0 hto0 hmu0
    have hbfs : bfsShortestPath E dir f t maxLength = some (some p) := hrun
    have hplen : p.length - 1 = m := by omega
    refine ⟨⟨true, some p, p.length - 1⟩, p, ?_, rfl, rfl, hh, hl, hc, rfl, ?_, ?_⟩
    · unfold findShortestPath
      have hfeq : (f == t) = false := by simpa using hft
      simp only [hcf, hct, hfeq, Bool.not_true, Bool.false_eq_true, if_false,
        Bool.not_false]
      rw [hbfs]
    · rw [hplen]
      exact hm.1
    · intro j hj
      rw [hplen]
      exact hm.2 j hj

/-- The C4 statement applied at the claim example: the chain a to b to c to d
plus the shortcut edge a to d; the downward query from a to d returns a path
of length 1, the direct edge, not 3. -/
theorem C4_witness :
    ∃ r p, findShortestPath ["a", "b", "c", "d"]
        [("a", "b"), ("b", "c"), ("c", "d"), ("a", "d")] "a" "d" PathDir.downward 10 =
      .ok r ∧ r.found = true ∧ r.path = some p ∧ r.length = 1 := by
  obtain ⟨r, p, hok, hfound, hpath, hh, hl, hc, hrl, hsteps, hmin⟩ :=
    C4_findShortestPath_minimal ["a", "b", "c", "d"]
      [("a", "b"), ("b", "c"), ("c", "d"), ("a", "d")] "a" "d" .downward 10 1
      (by decide) (by decide) (.head (by decide) (.refl "d")) (by decide)
  have h1 : r.length ≤ 1 := hmin 1 (.head (by decide) (.refl "d"))
  have h2 : r.length ≠ 0 := by
    intro h0
    rw [h0] at hsteps
    exact absurd hsteps.eq_of_zero (by decide)
  have h3 : r.length = 1 := by omega
  exact ⟨r, p, hok, hfound, hpath, h3⟩

end DagBe
